import Mathlib

/-!
Verification development for the `xspline` B-spline library.

The library consists of `xspline/bspline.py` (the `bspline` class: supports,
basis values, derivatives, repeated integrals, design matrices) and
`xspline/utils.py` (interval indicators, endpoint ramps, and the piecewise
constant integrator).  `bspline.py` refers to the utility functions under
their older names (`indicator`, `linearL`, `linearR`, `intgIndicator`);
`utils.py` carries the same functions under the newer names
(`indicator_f`, `linear_lf`, `linear_rf`, `indicator_if`).  Both names are
provided here, the newer ones holding the definitions.

Real numbers are embedded as `ℚ` (the library's algebra is exact on
rationals), numpy's `±inf` interval ends as the `EB` type, and Python
`assert` / index failures as `Except String` values.
-/

set_option maxHeartbeats 1000000

namespace XSpline

/-- Extended interval bound: a finite value or one of numpy's infinities.
`splineSGen` replaces an endpoint of a support by `±inf` when extrapolation
is requested, and the indicator compares against such bounds. -/
inductive EB where
  | ninf : EB
  | fin : ℚ → EB
  | pinf : EB
deriving DecidableEq

/-- Comparison `b < x` of an extended lower bound with a finite point,
as numpy evaluates `x > b` for `b` possibly `-inf`/`inf`. -/
def EB.ltQ : EB → ℚ → Bool
  | .ninf, _ => true
  | .fin q, x => decide (q < x)
  | .pinf, _ => false

/-- Comparison `b ≤ x` of an extended lower bound with a finite point (`x >= b`). -/
def EB.leQ : EB → ℚ → Bool
  | .ninf, _ => true
  | .fin q, x => decide (q ≤ x)
  | .pinf, _ => false

/-- Comparison `x < b` of a finite point with an extended upper bound. -/
def qLtEB (x : ℚ) : EB → Bool
  | .ninf => false
  | .fin q => decide (x < q)
  | .pinf => true

/-- Comparison `x ≤ b` of a finite point with an extended upper bound. -/
def qLeEB (x : ℚ) : EB → Bool
  | .ninf => false
  | .fin q => decide (x ≤ q)
  | .pinf => true

/-- `utils.indicator_f` (the `indicator` of `bspline.py`): 1 where `x` lies in
the interval `b` under the given open/closed boundary convention, else 0.
Scalar semantics of the vectorised source; arrays act elementwise. -/
def indicator_f (x : ℚ) (b : EB × EB) (l_close r_close : Bool) : ℚ :=
  if ((if l_close then b.1.leQ x else b.1.ltQ x) &&
      (if r_close then qLeEB x b.2 else qLtEB x b.2)) then 1 else 0

/-- `utils.linear_lf`: the ramp interpolating 0 at the left end of `b` to 1 at
the right end, `(x - b[0])/(b[1] - b[0])`. -/
def linear_lf (x : ℚ) (b : ℚ × ℚ) : ℚ := (x - b.1) / (b.2 - b.1)

/-- `utils.linear_rf`: the ramp interpolating 1 at the left end of `b` to 0 at
the right end, `(x - b[1])/(b[0] - b[1])`. -/
def linear_rf (x : ℚ) (b : ℚ × ℚ) : ℚ := (x - b.2) / (b.1 - b.2)

/-- `linearL` of `bspline.py`: the older name of `utils.linear_lf`. -/
def linearL (x : ℚ) (b : ℚ × ℚ) : ℚ := linear_lf x b

/-- `linearR` of `bspline.py`: the older name of `utils.linear_rf`. -/
def linearR (x : ℚ) (b : ℚ × ℚ) : ℚ := linear_rf x b

/-- The spline model: the stored knot array and degree of `bspline.__init__`.
The constructor checks (`num_invls ≥ 1`, integer degree `≥ 0`) live in
`bspline.init` below; theorems that need the stored-knot invariant assume
`bspline.WF`. -/
structure bspline where
  knots : List ℚ
  degree : ℕ
deriving DecidableEq

/-- `self.num_knots = knots.size`. -/
def bspline.num_knots (s : bspline) : ℕ := s.knots.length

/-- `self.num_invls = knots.size - 1`. -/
def bspline.num_invls (s : bspline) : ℕ := s.knots.length - 1

/-- `self.num_spline_bases = num_invls + degree`. -/
def bspline.num_spline_bases (s : bspline) : ℕ := s.num_invls + s.degree

/-- Access `self.knots[j]` (all source accesses are in range; out-of-range
reads default to 0 and are never exercised by the theorems). -/
def bspline.kn (s : bspline) (j : ℕ) : ℚ := s.knots.getD j 0

/-- Invariant of a constructed model: strictly increasing knots, at least two
of them (so `num_invls ≥ 1`). -/
def bspline.WF (s : bspline) : Prop :=
  s.knots.Sorted (· < ·) ∧ 2 ≤ s.knots.length

/-- Sorted deduplication `np.sort(np.array(list(set(knots))))` performed by
the constructor. -/
def dedupSort (ks : List ℚ) : List ℚ := ks.toFinset.sort (· ≤ ·)

/-- `bspline.__init__`: deduplicate and sort the knots, store degree, and
assert `num_invls ≥ 1` and that the degree is a non-negative integer
(the integer input type models `isinstance(degree, int)`; an assertion
failure is `none`). -/
def bspline.init (ks : List ℚ) (deg : ℤ) : Option bspline :=
  let sorted := dedupSort ks
  if 2 ≤ sorted.length ∧ 0 ≤ deg then some ⟨sorted, deg.toNat⟩ else none

/-- `bspline.splineSGen` without extrapolation flags: the finite support
`[knots[max(i-p, 0)], knots[min(i+1, num_invls)]]` (natural subtraction
realises `max(i-p, 0)`).  The source's ramp arguments
`self.splineSGen(·, ·)` with default flags are always this finite pair. -/
def bspline.splineSGenQ (s : bspline) (i p : ℕ) : ℚ × ℚ :=
  (s.kn (i - p), s.kn (min (i + 1) s.num_invls))

/-- `bspline.splineSGen`: the atom support of basis `i` at sub-degree `p`,
with the left end replaced by `-inf` when `i == 0` and `l_extra`, and the
right end by `inf` when `i == p + num_invls - 1` and `r_extra`. -/
def bspline.splineSGen (s : bspline) (i p : ℕ) (l_extra r_extra : Bool) : EB × EB :=
  ((if i = 0 ∧ l_extra then EB.ninf else EB.fin (s.kn (i - p))),
   (if i = p + s.num_invls - 1 ∧ r_extra then EB.pinf
    else EB.fin (s.kn (min (i + 1) s.num_invls))))

/-- `bspline.splineS`: support at the full degree. -/
def bspline.splineS (s : bspline) (i : ℕ) (l_extra r_extra : Bool) : EB × EB :=
  s.splineSGen i s.degree l_extra r_extra

/-- `bspline.splineFGen`: the atom spline function of basis `i` at sub-degree
`p`.  Degree 0 is the indicator of the support, right-closed exactly at the
last interval index; `i = 0` and `i = num_invls + p - 1` are the one-sided
ramp powers (the extrapolation flags feed only the indicator, the ramp uses
the unextended support); interior indices follow the two-term recursion. -/
def bspline.splineFGen (s : bspline) (x : ℚ) : ℕ → ℕ → Bool → Bool → ℚ
  | i, 0, l_extra, r_extra =>
      indicator_f x (s.splineSGen i 0 l_extra r_extra) true (decide (i = s.num_invls - 1))
  | i, p + 1, l_extra, r_extra =>
      if i = 0 then
        indicator_f x (s.splineSGen 0 (p + 1) l_extra r_extra) true false *
          linearR x (s.splineSGenQ 0 (p + 1)) ^ (p + 1)
      else if i = s.num_invls + (p + 1) - 1 then
        indicator_f x (s.splineSGen i (p + 1) l_extra r_extra) true true *
          linearL x (s.splineSGenQ i (p + 1)) ^ (p + 1)
      else
        s.splineFGen x (i - 1) p l_extra r_extra * linearL x (s.splineSGenQ (i - 1) p) +
          s.splineFGen x i p l_extra r_extra * linearR x (s.splineSGenQ i p)

/-- `bspline.splineF`: basis value at the full degree. -/
def bspline.splineF (s : bspline) (x : ℚ) (i : ℕ) (l_extra r_extra : Bool) : ℚ :=
  s.splineFGen x i s.degree l_extra r_extra

/-- `bspline.splineDFGen`: the atom n-th derivative of basis `i` at sub-degree
`p`.  Order 0 delegates to `splineFGen`; `n > p` is the zero function (the
source's `np.zeros(x.size)`, scalar value 0); otherwise the product-rule
expansion of the two-term recursion, the two sides computed with knot spans
`invl[1] - invl[0]` (the `i-1` child) and `invl[0] - invl[1]` (the `i` child),
dropping the side that falls outside the index range.  The source's `p == 0`
branch is unreachable for `n ≥ 1` because of the `n > p` guard, so the
patterns here realise it as the `n > p` zero. -/
def bspline.splineDFGen (s : bspline) (x : ℚ) : ℕ → ℕ → ℕ → Bool → Bool → ℚ
  | i, p, 0, l_extra, r_extra => s.splineFGen x i p l_extra r_extra
  | _, 0, _ + 1, _, _ => 0
  | i, p + 1, n + 1, l_extra, r_extra =>
      if p + 1 < n + 1 then 0
      else
        let rdf : ℚ :=
          if i = 0 then 0
          else
            let invl := s.splineSGenQ (i - 1) p
            let d := invl.2 - invl.1
            let f := (x - invl.1) / d
            f * s.splineDFGen x (i - 1) p (n + 1) l_extra r_extra +
              ((n : ℚ) + 1) * s.splineDFGen x (i - 1) p n l_extra r_extra / d
        let ldf : ℚ :=
          if i = s.num_invls + (p + 1) - 1 then 0
          else
            let invl := s.splineSGenQ i p
            let d := invl.1 - invl.2
            let f := (x - invl.2) / d
            f * s.splineDFGen x i p (n + 1) l_extra r_extra +
              ((n : ℚ) + 1) * s.splineDFGen x i p n l_extra r_extra / d
        ldf + rdf

/-- `bspline.splineDF`: n-th derivative at the full degree. -/
def bspline.splineDF (s : bspline) (x : ℚ) (i n : ℕ) (l_extra r_extra : Bool) : ℚ :=
  s.splineDFGen x i s.degree n l_extra r_extra

/-- A "piece" of a piecewise function handed to the integrator: arguments
`(a, x, order)` as the lambdas of `utils.indicator_if` pass them. -/
def PieceFun : Type := ℚ → ℚ → ℕ → ℚ

/-- `utils.constant_if`: the `order`-fold repeated integral of the constant
`c` from `a` to `x`, `c (x-a)^order / order!`, special-cased to exact 0 for
`c = 0` (the scalar value; the array branches only shape the result). -/
def constant_if (a x : ℚ) (order : ℕ) (c : ℚ) : ℚ :=
  if c = 0 then 0 else c * (x - a) ^ order / (Nat.factorial order : ℚ)

/-- `utils.integrate_across_pieces`: peel the first piece off, integrate the
rest from the first knot, and add the first piece's Taylor-shifted
contributions.  A single piece integrates directly.  Failures are explicit:
`AssertionError` when a bound is not strictly outside the knot slice,
`IndexError` where Python would index an empty list. -/
def integrate_across_pieces (order : ℕ) :
    ℚ → ℚ → List PieceFun → List ℚ → Except String ℚ
  | a, x, [f], _ => .ok (f a x order)
  | _, _, [], [] => .error "IndexError"
  | a, x, [], b :: ks =>
      if a < b ∧ (b :: ks).getLast (List.cons_ne_nil b ks) < x then
        integrate_across_pieces order b x [] ks
      else .error "AssertionError"
  | _, _, _ :: _ :: _, [] => .error "IndexError"
  | a, x, f :: f₂ :: fs, b :: ks =>
      if a < b ∧ (b :: ks).getLast (List.cons_ne_nil b ks) < x then
        match integrate_across_pieces order b x (f₂ :: fs) ks with
        | .error e => .error e
        | .ok val =>
            .ok (val + ∑ j ∈ Finset.range order,
              f a b (order - j) * (x - b) ^ j / (Nat.factorial j : ℚ))
      else .error "AssertionError"

/-- The boolean mask `a_ind[i]` of `utils.pieces_if` at a scalar lower bound:
strictly left of the knots, inside the i-th half-open interval
`[knots[i-1], knots[i])`, or at/past the last knot. -/
def a_ind (a : ℚ) (knots : List ℚ) (i : ℕ) : Bool :=
  if i = 0 then decide (a < knots.getD 0 0)
  else if i < knots.length then
    decide (knots.getD (i - 1) 0 ≤ a) && decide (a < knots.getD i 0)
  else decide (knots.getD (knots.length - 1) 0 ≤ a)

/-- The mask `x_ind[i]` at a scalar upper bound: the mirrored half-open
convention `(knots[i-1], knots[i]]`. -/
def x_ind (x : ℚ) (knots : List ℚ) (i : ℕ) : Bool :=
  if i = 0 then decide (x ≤ knots.getD 0 0)
  else if i < knots.length then
    decide (knots.getD (i - 1) 0 < x) && decide (x ≤ knots.getD i 0)
  else decide (knots.getD (knots.length - 1) 0 < x)

/-- The `(ia, ix)` pairs visited by the double loop of `utils.pieces_if`, in
loop order: `ia` over `range(len(funcs))`, `ix` over `range(ia, len(funcs))`. -/
def bucketPairs (m : ℕ) : List (ℕ × ℕ) :=
  (List.range m).flatMap fun ia => (List.range' ia (m - ia)).map fun ix => (ia, ix)

/-- One iteration of the double loop of `utils.pieces_if`: where both masks
hold, overwrite the accumulated value with the integral over exactly the
slice of pieces spanned; an error (a raised exception) aborts the loop. -/
def bucketStep (a x : ℚ) (order : ℕ) (funcs : List PieceFun) (knots : List ℚ)
    (acc : Except String ℚ) (p : ℕ × ℕ) : Except String ℚ :=
  match acc with
  | .error e => .error e
  | .ok v =>
      if a_ind a knots p.1 && x_ind x knots p.2 then
        integrate_across_pieces order a x
          ((funcs.drop p.1).take (p.2 - p.1 + 1)) ((knots.drop p.1).take (p.2 - p.1))
      else .ok v

/-- `utils.pieces_if` at scalar bounds (the vectorised source classifies each
component pair independently and applies exactly this computation to it):
check `a ≤ x` and `len(funcs) == len(knots) + 1`, build the interval masks
(`knots[0]` of an empty knot list raises), and run the double loop over
bucket pairs starting from the zero result. -/
def pieces_if (a x : ℚ) (order : ℕ) (funcs : List PieceFun) (knots : List ℚ) :
    Except String ℚ :=
  if ¬ a ≤ x then .error "AssertionError"
  else if funcs.length ≠ knots.length + 1 then .error "AssertionError"
  else if knots.isEmpty then .error "IndexError"
  else (bucketPairs funcs.length).foldl (bucketStep a x order funcs knots) (.ok 0)

/-- `utils.indicator_if` (the `intgIndicator` of `bspline.py`): the
`order`-fold repeated integral of the indicator of `[b.1, b.2]`, via the
three constant pieces 0, 1, 0 split at the interval's endpoints. -/
def indicator_if (a x : ℚ) (order : ℕ) (b : ℚ × ℚ) : Except String ℚ :=
  pieces_if a x order
    [fun a x order => constant_if a x order 0,
     fun a x order => constant_if a x order 1,
     fun a x order => constant_if a x order 0] [b.1, b.2]

/-- One side contribution `f * t₁ - nq * t₂ / d` of the integral recursion,
with the first recursive call's exception propagating before the second's —
the evaluation order of the source. -/
def sideIF (t₁ t₂ : Except String ℚ) (f d nq : ℚ) : Except String ℚ :=
  match t₁, t₂ with
  | .ok v₁, .ok v₂ => .ok (f * v₁ - nq * v₂ / d)
  | .error e, _ => .error e
  | .ok _, .error e => .error e

/-- `bspline.splineIFGen`: the atom n-fold repeated integral from `a` to `x`
of basis `i` at sub-degree `p`.  Order 0 delegates to `splineFGen`; degree 0
delegates to the piecewise constant integrator over the (possibly
extrapolated) support; otherwise the two-sided recursion with the sign flip
and order increment, `rif` evaluated before `lif` as in the source.  A
support end made infinite by an extrapolation flag would feed numpy's `inf`
into the integrator; that numeric path lies outside every claim and is
modelled as the distinct sentinel `InfiniteBound`. -/
def bspline.splineIFGen (s : bspline) (a x : ℚ) :
    ℕ → ℕ → ℕ → Bool → Bool → Except String ℚ
  | i, p, 0, l_extra, r_extra => .ok (s.splineFGen x i p l_extra r_extra)
  | i, 0, n + 1, l_extra, r_extra =>
      match s.splineSGen i 0 l_extra r_extra with
      | (EB.fin l, EB.fin r) => indicator_if a x (n + 1) (l, r)
      | _ => .error "InfiniteBound"
  | i, p + 1, n + 1, l_extra, r_extra =>
      let rif : Except String ℚ :=
        if i = 0 then .ok 0
        else
          sideIF (s.splineIFGen a x (i - 1) p (n + 1) l_extra r_extra)
            (s.splineIFGen a x (i - 1) p (n + 2) l_extra r_extra)
            ((x - (s.splineSGenQ (i - 1) p).1) /
              ((s.splineSGenQ (i - 1) p).2 - (s.splineSGenQ (i - 1) p).1))
            ((s.splineSGenQ (i - 1) p).2 - (s.splineSGenQ (i - 1) p).1) ((n : ℚ) + 1)
      let lif : Except String ℚ :=
        if i = s.num_invls + (p + 1) - 1 then .ok 0
        else
          sideIF (s.splineIFGen a x i p (n + 1) l_extra r_extra)
            (s.splineIFGen a x i p (n + 2) l_extra r_extra)
            ((x - (s.splineSGenQ i p).2) /
              ((s.splineSGenQ i p).1 - (s.splineSGenQ i p).2))
            ((s.splineSGenQ i p).1 - (s.splineSGenQ i p).2) ((n : ℚ) + 1)
      match rif, lif with
      | .ok v₂, .ok v₁ => .ok (v₁ + v₂)
      | .error e, _ => .error e
      | .ok _, .error e => .error e

/-- `bspline.splineIF`: n-fold repeated integral at the full degree. -/
def bspline.splineIF (s : bspline) (a x : ℚ) (i n : ℕ) (l_extra r_extra : Bool) :
    Except String ℚ :=
  s.splineIFGen a x i s.degree n l_extra r_extra

/-- Two knots `[0, 1]`, degree 0: the single-interval step-function model. -/
def mdl01 : bspline := ⟨[0, 1], 0⟩

/-- Two knots `[0, 1]`, degree 1: the two-hat linear model. -/
def mdl01d1 : bspline := ⟨[0, 1], 1⟩

/-- Three knots `[0, 1, 2]`, degree 1: has one interior basis index. -/
def mdl012 : bspline := ⟨[0, 1, 2], 1⟩

/-- Modelled from the spec's interior-case sentence (§4.3), for comparison
with the source's interior branch:
`f(x,i−1,q−1)·right_ramp(x, support(i−1,q−1)) + f(x,i,q−1)·left_ramp(x, support(i,q−1))`,
where `right_ramp` falls 1→0 over its interval (`linear_rf`) and `left_ramp`
rises 0→1 (`linear_lf`). -/
def specC1InteriorRhs (s : bspline) (x : ℚ) (i q : ℕ) (le re : Bool) : ℚ :=
  s.splineFGen x (i - 1) (q - 1) le re * linear_rf x (s.splineSGenQ (i - 1) (q - 1)) +
    s.splineFGen x i (q - 1) le re * linear_lf x (s.splineSGenQ i (q - 1))

/-- Modelled from the spec's derivative sentence (§4.4), for comparison with
`splineDFGen`: each surviving side contributes
`ramp_weight · df(child, p−1, n) + n · df(child, p−1, n−1) / knot_span` with
`knot_span` the right-minus-left span of that child's degree-(p−1) support,
and a boundary index drops its missing side. -/
def specC4DerivRhs (s : bspline) (x : ℚ) (i p n : ℕ) (le re : Bool) : ℚ :=
  (if i = 0 then 0
   else
     linear_lf x (s.splineSGenQ (i - 1) (p - 1)) * s.splineDFGen x (i - 1) (p - 1) n le re +
       (n : ℚ) * s.splineDFGen x (i - 1) (p - 1) (n - 1) le re /
         ((s.splineSGenQ (i - 1) (p - 1)).2 - (s.splineSGenQ (i - 1) (p - 1)).1)) +
  (if i = s.num_invls + p - 1 then 0
   else
     linear_rf x (s.splineSGenQ i (p - 1)) * s.splineDFGen x i (p - 1) n le re +
       (n : ℚ) * s.splineDFGen x i (p - 1) (n - 1) le re /
         ((s.splineSGenQ i (p - 1)).2 - (s.splineSGenQ i (p - 1)).1))

/-- `splineDFGen` is identically zero whenever the differentiation order
exceeds the sub-degree (the `n > p` branch). -/
theorem splineDFGen_eq_zero_of_lt (s : bspline) (x : ℚ) (i p n : ℕ) (le re : Bool)
    (h : p < n) : s.splineDFGen x i p n le re = 0 := by
  match p, n with
  | _, 0 => omega
  | 0, n + 1 => rfl
  | p + 1, n + 1 =>
      simp only [bspline.splineDFGen]
      rw [if_pos (by omega)]

/-- C1 (corrected): the interior two-term recursion as the code computes it.
For `1 ≤ q ≤ degree`, an interior index `0 < i < num_invls + q − 1`, and any
point and extrapolation flags, the basis value blends the `i−1` child with
the rising ramp `linear_lf` over `support(i−1, q−1)` and the `i` child with
the falling ramp `linear_rf` over `support(i, q−1)` (the spec states the two
ramps the other way round). -/
theorem splineF_interior_step (s : bspline) (x : ℚ) (i q : ℕ) (le re : Bool)
    (hq1 : 1 ≤ q) (hqd : q ≤ s.degree) (hi0 : 0 < i) (hik : i < s.num_invls + q - 1) :
    s.splineFGen x i q le re =
      s.splineFGen x (i - 1) (q - 1) le re * linear_lf x (s.splineSGenQ (i - 1) (q - 1)) +
        s.splineFGen x i (q - 1) le re * linear_rf x (s.splineSGenQ i (q - 1)) := by
  obtain ⟨p, rfl⟩ : ∃ p, q = p + 1 := ⟨q - 1, (Nat.succ_pred_eq_of_pos hq1).symm⟩
  simp only [bspline.splineFGen]
  rw [if_neg (by omega), if_neg (by omega)]
  simp [linearL, linearR]

/-- Witness for C1 at the interior index of `mdl012`. -/
theorem splineF_interior_step_witness :
    mdl012.splineFGen (1/4) 1 1 false false =
      mdl012.splineFGen (1/4) 0 0 false false * linear_lf (1/4) (mdl012.splineSGenQ 0 0) +
        mdl012.splineFGen (1/4) 1 0 false false * linear_rf (1/4) (mdl012.splineSGenQ 1 0) :=
  splineF_interior_step mdl012 (1/4) 1 1 false false (by decide) (by decide) (by decide)
    (by decide)

/-- Counterexample for C1 as stated: at `mdl012`, `x = 1/4`, interior index
`i = 1`, sub-degree `q = 1`, the code's value `1/4` differs from the spec's
ramp-swapped blend, which evaluates to `3/4`. -/
theorem splineF_interior_step_swapped_cex :
    mdl012.splineFGen (1/4) 1 1 false false ≠ specC1InteriorRhs mdl012 (1/4) 1 1 false false := by
  norm_num [mdl012, specC1InteriorRhs, bspline.splineFGen, bspline.splineSGen,
    bspline.splineSGenQ, indicator_f, bspline.num_invls, bspline.kn, EB.leQ, qLtEB, qLeEB,
    List.getD, linearL, linearR, linear_lf, linear_rf]

/-- C4 (corrected): the product-rule expansion as the code computes it.  For
`1 ≤ n ≤ p` the n-th derivative is `ldf + rdf` where the `i−1` child's side
divides its correction term by the right-minus-left span `invl[1] − invl[0]`
but the `i` child's side divides by the reversed span `invl[0] − invl[1]`
(the spec says right-minus-left for both); the boundary indices drop the
missing side as zero. -/
theorem splineDF_two_sided_step (s : bspline) (x : ℚ) (i p n : ℕ) (le re : Bool)
    (hn1 : 1 ≤ n) (hnp : n ≤ p) :
    s.splineDFGen x i p n le re =
      (if i = s.num_invls + p - 1 then 0
       else
         linear_rf x (s.splineSGenQ i (p - 1)) * s.splineDFGen x i (p - 1) n le re +
           (n : ℚ) * s.splineDFGen x i (p - 1) (n - 1) le re /
             ((s.splineSGenQ i (p - 1)).1 - (s.splineSGenQ i (p - 1)).2)) +
      (if i = 0 then 0
       else
         linear_lf x (s.splineSGenQ (i - 1) (p - 1)) * s.splineDFGen x (i - 1) (p - 1) n le re +
           (n : ℚ) * s.splineDFGen x (i - 1) (p - 1) (n - 1) le re /
             ((s.splineSGenQ (i - 1) (p - 1)).2 - (s.splineSGenQ (i - 1) (p - 1)).1)) := by
  obtain ⟨p', rfl⟩ : ∃ p', p = p' + 1 := ⟨p - 1, by omega⟩
  obtain ⟨n', rfl⟩ : ∃ n', n = n' + 1 := ⟨n - 1, by omega⟩
  simp only [bspline.splineDFGen]
  rw [if_neg (by omega)]
  simp only [Nat.add_sub_cancel, linear_lf, linear_rf]
  push_cast
  ring_nf

/-- Witness for C4 at the left boundary index of `mdl01d1`. -/
theorem splineDF_two_sided_step_witness :
    mdl01d1.splineDFGen (1/2) 0 1 1 false false =
      (if 0 = mdl01d1.num_invls + 1 - 1 then 0
       else
         linear_rf (1/2) (mdl01d1.splineSGenQ 0 0) * mdl01d1.splineDFGen (1/2) 0 0 1 false false +
           ((1 : ℕ) : ℚ) * mdl01d1.splineDFGen (1/2) 0 0 0 false false /
             ((mdl01d1.splineSGenQ 0 0).1 - (mdl01d1.splineSGenQ 0 0).2)) +
      (if 0 = 0 then 0
       else
         linear_lf (1/2) (mdl01d1.splineSGenQ 0 0) * mdl01d1.splineDFGen (1/2) 0 0 1 false false +
           ((1 : ℕ) : ℚ) * mdl01d1.splineDFGen (1/2) 0 0 0 false false /
             ((mdl01d1.splineSGenQ 0 0).2 - (mdl01d1.splineSGenQ 0 0).1)) :=
  splineDF_two_sided_step mdl01d1 (1/2) 0 1 1 false false (by decide) (by decide)

/-- Counterexample for C4 as stated: at `mdl01d1`, `x = 1/2`, `i = 0`,
`p = n = 1` the code's first derivative is `−1` (the dividing span is
`invl[0] − invl[1] = −1`), while the spec's right-minus-left formula gives
`+1`. -/
theorem splineDF_span_sign_cex :
    mdl01d1.splineDFGen (1/2) 0 1 1 false false ≠
      specC4DerivRhs mdl01d1 (1/2) 0 1 1 false false := by
  norm_num [mdl01d1, specC4DerivRhs, bspline.splineDFGen, bspline.splineFGen,
    bspline.splineSGen, bspline.splineSGenQ, indicator_f, bspline.num_invls, bspline.kn,
    EB.leQ, qLtEB, qLeEB, List.getD, linearL, linearR, linear_lf, linear_rf]

/-- C5 (corrected): knots `[0,1]` with degree 0 give a single basis function
with value 1 at the midpoint, and value 1 — not 0 — at the right endpoint:
the solitary interval is the last interval, whose indicator is right-closed. -/
theorem degree0_single_basis_values :
    mdl01.num_spline_bases = 1 ∧ mdl01.splineF (1/2) 0 false false = 1 ∧
      mdl01.splineF 1 0 false false = 1 := by
  refine ⟨by decide, ?_, ?_⟩ <;>
    norm_num [mdl01, bspline.splineF, bspline.splineFGen, bspline.splineSGen, indicator_f,
      bspline.num_invls, bspline.kn, bspline.degree, EB.leQ, qLtEB, qLeEB, List.getD]

/-- Counterexample for C5 as stated: the claimed right-open convention fails,
`basis_value(1.0, 0)` is not 0. -/
theorem degree0_right_endpoint_cex : mdl01.splineF 1 0 false false ≠ 0 := by
  norm_num [mdl01, bspline.splineF, bspline.splineFGen, bspline.splineSGen, indicator_f,
    bspline.num_invls, bspline.kn, bspline.degree, EB.leQ, qLtEB, qLeEB, List.getD]

/-- C9 (code slip in the source's shape handling; the zero value itself is
as claimed): for any order strictly above the degree the derivative
evaluator returns the zero value at every point. -/
theorem splineDF_zero_above_degree (s : bspline) (x : ℚ) (i n : ℕ) (le re : Bool)
    (h : s.degree < n) : s.splineDF x i n le re = 0 :=
  splineDFGen_eq_zero_of_lt s x i s.degree n le re h

/-- Witness for C9: the order-1 derivative of the degree-0 model vanishes. -/
theorem splineDF_zero_above_degree_witness : mdl01.splineDF (1/2) 0 1 false false = 0 :=
  splineDF_zero_above_degree mdl01 (1/2) 0 1 false false (by decide)

/-- The constructor's knot list is strictly increasing. -/
theorem dedupSort_sorted_lt (ks : List ℚ) : (dedupSort ks).Sorted (· < ·) :=
  Finset.sort_sorted_lt _

/-- The constructor's knot list has one entry per distinct input knot. -/
theorem dedupSort_length (ks : List ℚ) : (dedupSort ks).length = ks.toFinset.card :=
  Finset.length_sort _

/-- Sorted deduplication of the sample input `[0, 1, 1]`. -/
theorem dedupSort_sample : dedupSort [0, 1, 1] = [0, 1] := by
  have h1 : ([0, 1, 1] : List ℚ).toFinset = insert 0 {1} := by norm_num
  rw [dedupSort, h1]
  rw [Finset.sort_insert]
  · rw [Finset.sort_singleton]
  · intro b hb; simp only [Finset.mem_singleton] at hb; norm_num [hb]
  · norm_num

/-- C8 (confirmed): construction from `(knots, degree)` fails exactly when
fewer than 2 distinct knots survive deduplication or the (integer) degree is
negative; every other input builds a model with
`num_invls = (distinct knots) − 1` and `num_spline_bases = num_invls + degree`.
(The degree input is embedded as `ℤ`; `isinstance(degree, int)` excludes
non-integer degrees before the sign check.) -/
theorem init_success_iff (ks : List ℚ) (deg : ℤ) :
    (bspline.init ks deg = none ↔ ks.toFinset.card < 2 ∨ deg < 0) ∧
      ∀ s, bspline.init ks deg = some s →
        s.num_invls = ks.toFinset.card - 1 ∧
          s.num_spline_bases = s.num_invls + deg.toNat ∧ s.degree = deg.toNat := by
  unfold bspline.init
  by_cases h : 2 ≤ (dedupSort ks).length ∧ 0 ≤ deg
  · rw [if_pos h]
    refine ⟨by simp [dedupSort_length ks ▸ h.1, h.2, not_lt], ?_⟩
    rintro s hs
    cases hs
    simp [bspline.num_invls, bspline.num_spline_bases, dedupSort_length]
  · rw [if_neg h]
    rw [dedupSort_length] at h
    refine ⟨⟨fun _ => by omega, fun _ => rfl⟩, by rintro s ⟨⟩⟩

/-- Witness for C8 on the sample input `[0, 1, 1]` with degree 2. -/
theorem init_success_iff_witness :
    (⟨[0, 1], 2⟩ : bspline).num_invls = ([0, 1, 1] : List ℚ).toFinset.card - 1 ∧
      (⟨[0, 1], 2⟩ : bspline).num_spline_bases =
        (⟨[0, 1], 2⟩ : bspline).num_invls + (2 : ℤ).toNat ∧
      (⟨[0, 1], 2⟩ : bspline).degree = (2 : ℤ).toNat :=
  (init_success_iff [0, 1, 1] 2).2 ⟨[0, 1], 2⟩
    (by rw [bspline.init, dedupSort_sample]; norm_num [Int.toNat])

/-- C10 (confirmed): whatever the raw input (unsorted, duplicated), a
successfully constructed model stores exactly the sorted deduplication of
it, which is strictly increasing of length at least 2, together with the
degree; the embedding is purely functional, so no later operation can
mutate these fields — as in the source, where no method assigns them after
`__init__`. -/
theorem init_knots_sorted_dedup (ks : List ℚ) (deg : ℤ) (s : bspline)
    (h : bspline.init ks deg = some s) :
    s.knots = dedupSort ks ∧ s.knots.Sorted (· < ·) ∧ 2 ≤ s.knots.length ∧
      s.degree = deg.toNat := by
  unfold bspline.init at h
  by_cases hc : 2 ≤ (dedupSort ks).length ∧ 0 ≤ deg
  · rw [if_pos hc] at h
    cases h
    exact ⟨rfl, dedupSort_sorted_lt ks, hc.1, rfl⟩
  · rw [if_neg hc] at h
    cases h

/-- For strictly sorted knots, earlier knots are at most later ones. -/
theorem kn_le {s : bspline} (hs : s.knots.Sorted (· < ·)) {j j' : ℕ}
    (h : j ≤ j') (h2 : j' < s.knots.length) : s.kn j ≤ s.kn j' := by
  unfold bspline.kn
  rw [List.getD_eq_getElem _ _ (lt_of_le_of_lt h h2), List.getD_eq_getElem _ _ h2]
  rcases eq_or_lt_of_le h with rfl | hlt
  · exact le_rfl
  · exact le_of_lt (List.pairwise_iff_getElem.mp hs j j' _ h2 hlt)

/-- For strictly sorted knots, earlier knots are strictly below later ones. -/
theorem kn_lt {s : bspline} (hs : s.knots.Sorted (· < ·)) {j j' : ℕ}
    (h : j < j') (h2 : j' < s.knots.length) : s.kn j < s.kn j' := by
  unfold bspline.kn
  rw [List.getD_eq_getElem _ _ (lt_trans h h2), List.getD_eq_getElem _ _ h2]
  exact List.pairwise_iff_getElem.mp hs j j' _ h2 h

/-- A well-formed model has at least one interval. -/
theorem num_invls_pos {s : bspline} (hWF : s.WF) : 1 ≤ s.num_invls := by
  have := hWF.2; unfold bspline.num_invls; omega

/-- Index arithmetic: `num_invls < knots.length` for a well-formed model. -/
theorem num_invls_lt_len {s : bspline} (hWF : s.WF) : s.num_invls < s.knots.length := by
  have := hWF.2; unfold bspline.num_invls; omega

/-- The indicator vanishes strictly left of a finite lower bound. -/
theorem indicator_f_zero_left {x q : ℚ} {b : EB × EB} {lc rc : Bool}
    (hb : b.1 = EB.fin q) (h : x < q) : indicator_f x b lc rc = 0 := by
  unfold indicator_f
  rw [hb]
  cases lc <;> cases rc <;>
    simp [EB.leQ, EB.ltQ, not_le.mpr h, lt_asymm h]

/-- The indicator vanishes strictly right of a finite upper bound. -/
theorem indicator_f_zero_right {x q : ℚ} {b : EB × EB} {lc rc : Bool}
    (hb : b.2 = EB.fin q) (h : q < x) : indicator_f x b lc rc = 0 := by
  unfold indicator_f
  rw [hb]
  cases lc <;> cases rc <;>
    simp [qLeEB, qLtEB, not_le.mpr h, lt_asymm h]

/-- With the left flag off, the support's left end is the finite knot. -/
theorem splineSGen_fst (s : bspline) (i p : ℕ) (re : Bool) :
    (s.splineSGen i p false re).1 = EB.fin (s.kn (i - p)) := by
  simp [bspline.splineSGen]

/-- With the right flag off, the support's right end is the finite knot. -/
theorem splineSGen_snd (s : bspline) (i p : ℕ) (le : Bool) :
    (s.splineSGen i p le false).2 = EB.fin (s.kn (min (i + 1) s.num_invls)) := by
  simp [bspline.splineSGen]

/-- On a side whose extrapolation flag is off, `splineFGen` vanishes strictly
outside the unextended support of basis `i` at sub-degree `p`, for every
index in the asserted range.  Induction over the sub-degree: the indicator
kills the base and boundary branches, and both interior children's supports
sit inside the parent's. -/
theorem splineFGen_outside (s : bspline) (hWF : s.WF) (x : ℚ) :
    ∀ (p i : ℕ) (le re : Bool), i ≤ s.num_invls + p - 1 →
      ((le = false ∧ x < (s.splineSGenQ i p).1) ∨
        (re = false ∧ (s.splineSGenQ i p).2 < x)) →
      s.splineFGen x i p le re = 0 := by
  have hn1 := num_invls_pos hWF
  have hnl := num_invls_lt_len hWF
  have hs := hWF.1
  intro p
  induction p with
  | zero =>
      intro i le re hi hout
      simp only [bspline.splineSGenQ] at hout
      show indicator_f x (s.splineSGen i 0 le re) true (decide (i = s.num_invls - 1)) = 0
      rcases hout with ⟨hle, hx⟩ | ⟨hre, hx⟩
      · subst hle
        exact indicator_f_zero_left (splineSGen_fst s i 0 re) hx
      · subst hre
        exact indicator_f_zero_right (splineSGen_snd s i 0 le) hx
  | succ p ih =>
      intro i le re hi hout
      simp only [bspline.splineSGenQ] at hout
      by_cases hi0 : i = 0
      · subst hi0
        show (if 0 = 0 then _ else _) = 0
        rw [if_pos rfl]
        refine mul_eq_zero_of_left ?_ _
        rcases hout with ⟨hle, hx⟩ | ⟨hre, hx⟩
        · subst hle; exact indicator_f_zero_left (splineSGen_fst s 0 (p + 1) re) hx
        · subst hre; exact indicator_f_zero_right (splineSGen_snd s 0 (p + 1) le) hx
      · by_cases hik : i = s.num_invls + (p + 1) - 1
        · show (if i = 0 then _ else if i = s.num_invls + (p + 1) - 1 then _ else _) = 0
          rw [if_neg hi0, if_pos hik]
          refine mul_eq_zero_of_left ?_ _
          rcases hout with ⟨hle, hx⟩ | ⟨hre, hx⟩
          · subst hle; exact indicator_f_zero_left (splineSGen_fst s i (p + 1) re) hx
          · subst hre; exact indicator_f_zero_right (splineSGen_snd s i (p + 1) le) hx
        · show (if i = 0 then _ else if i = s.num_invls + (p + 1) - 1 then _ else _) = 0
          rw [if_neg hi0, if_neg hik]
          rcases hout with ⟨hle, hx⟩ | ⟨hre, hx⟩
          · have h1 : x < (s.splineSGenQ (i - 1) p).1 := by
              simp only [bspline.splineSGenQ]
              have e1 : i - 1 - p = i - (p + 1) := by omega
              rw [e1]; exact hx
            have h2 : x < (s.splineSGenQ i p).1 := by
              simp only [bspline.splineSGenQ]
              refine lt_of_lt_of_le hx (kn_le hs (by omega) ?_)
              have : i - p ≤ s.num_invls := by omega
              omega
            rw [ih (i - 1) le re (by omega) (Or.inl ⟨hle, h1⟩),
              ih i le re (by omega) (Or.inl ⟨hle, h2⟩), zero_mul, zero_mul, add_zero]
          · have h2 : (s.splineSGenQ i p).2 < x := by
              simp only [bspline.splineSGenQ]; exact hx
            have h1 : (s.splineSGenQ (i - 1) p).2 < x := by
              simp only [bspline.splineSGenQ]
              have e2 : i - 1 + 1 = i := by omega
              rw [e2]
              refine lt_of_le_of_lt (kn_le hs ?_ ?_) hx
              · omega
              · omega
            rw [ih (i - 1) le re (by omega) (Or.inr ⟨hre, h1⟩),
              ih i le re (by omega) (Or.inr ⟨hre, h2⟩), zero_mul, zero_mul, add_zero]

/-- Witness for C10 on the unsorted, duplicated input `[1, 0, 1]`. -/
theorem init_knots_sorted_dedup_witness :
    (⟨[0, 1], 3⟩ : bspline).knots = dedupSort [1, 0, 1] ∧
      (⟨[0, 1], 3⟩ : bspline).knots.Sorted (· < ·) ∧
      2 ≤ (⟨[0, 1], 3⟩ : bspline).knots.length ∧
      (⟨[0, 1], 3⟩ : bspline).degree = (3 : ℤ).toNat :=
  init_knots_sorted_dedup [1, 0, 1] 3 ⟨[0, 1], 3⟩ (by
    have h1 : ([1, 0, 1] : List ℚ).toFinset = insert 0 {1} := by
      norm_num [Finset.Insert.comm]
    rw [bspline.init, dedupSort, h1]
    rw [Finset.sort_insert]
    · rw [Finset.sort_singleton]; norm_num [Int.toNat]
    · intro b hb; simp only [Finset.mem_singleton] at hb; norm_num [hb]
    · norm_num)

/-- C2 (corrected): compact support holds on every side whose extrapolation
flag is off: for a basis index `i < num_spline_bases`, `basis_value` is
exactly 0 at `x` strictly left of `support(i, degree)` when `l_extra` is
false, and at `x` strictly right of it when `r_extra` is false.  (With a
flag on, the claim as stated fails: the flag leaks polynomial tails past
the flag-aware support of non-extreme indices — see the counterexample.) -/
theorem splineF_zero_outside (s : bspline) (hWF : s.WF) (i : ℕ)
    (hi : i < s.num_spline_bases) (le re : Bool) (x : ℚ)
    (hout : (le = false ∧ x < (s.splineSGenQ i s.degree).1) ∨
      (re = false ∧ (s.splineSGenQ i s.degree).2 < x)) :
    s.splineF x i le re = 0 := by
  refine splineFGen_outside s hWF x s.degree i le re ?_ hout
  have h := hi
  unfold bspline.num_spline_bases at h
  omega

/-- Witness for C2: at `mdl012` the basis `1` value vanishes at `x = 5`,
right of its support `[0, 2]`. -/
theorem splineF_zero_outside_witness : mdl012.splineF 5 1 false false = 0 :=
  splineF_zero_outside mdl012 ⟨by decide, by decide⟩ 1 (by decide) false false 5
    (Or.inr ⟨rfl, by norm_num [mdl012, bspline.splineSGenQ, bspline.num_invls, bspline.kn,
      bspline.degree, List.getD]⟩)

/-- Counterexample for C2 as stated: at `mdl012` with `l_extra = true`, basis
`i = 1` has flag-aware support `[0, 2]`, yet at `x = −1 < 0` — outside that
support — its value is `−1`, not 0: the left-extrapolated degree-0 child of
index 0 reaches past the support of the non-extreme index 1. -/
theorem splineF_extrapolation_outside_cex :
    mdl012.splineS 1 true false = (EB.fin 0, EB.fin 2) ∧
      mdl012.splineF (-1) 1 true false ≠ 0 := by
  constructor
  · norm_num [mdl012, bspline.splineS, bspline.splineSGen, bspline.num_invls, bspline.kn,
      bspline.degree, List.getD]
  · norm_num [mdl012, bspline.splineF, bspline.splineFGen, bspline.splineSGen,
      bspline.splineSGenQ, indicator_f, bspline.num_invls, bspline.kn, bspline.degree,
      EB.leQ, qLtEB, qLeEB, List.getD, linearL, linearR, linear_lf, linear_rf]

/-- The indicator over a finite pair with closed left end is 1 on the
half-open or closed interval. -/
theorem indicator_f_one {x l r : ℚ} {b : EB × EB} {rc : Bool}
    (hb1 : b.1 = EB.fin l) (hb2 : b.2 = EB.fin r) (hl : l ≤ x) (hr : x < r) :
    indicator_f x b true rc = 1 := by
  unfold indicator_f
  rw [hb1, hb2]
  cases rc <;> simp [EB.leQ, qLeEB, qLtEB, hl, hr, le_of_lt hr]

/-- The right-open indicator vanishes at and right of its upper bound. -/
theorem indicator_f_zero_of_le_right {x r : ℚ} {b : EB × EB} {lc : Bool}
    (hb : b.2 = EB.fin r) (h : r ≤ x) : indicator_f x b lc false = 0 := by
  unfold indicator_f
  rw [hb]
  cases lc <;> simp [qLtEB, not_lt.mpr h]

/-- The two canonical ramps over a nondegenerate interval sum to 1. -/
theorem linear_lf_add_rf (x : ℚ) (b : ℚ × ℚ) (h : b.1 < b.2) :
    linear_lf x b + linear_rf x b = 1 := by
  have h1 : b.2 - b.1 ≠ 0 := sub_ne_zero.mpr (ne_of_gt h)
  have h2 : b.1 - b.2 ≠ 0 := sub_ne_zero.mpr (ne_of_lt h)
  field_simp [linear_lf, linear_rf]
  ring

/-- The `i = 0` branch of `splineFGen` at positive sub-degree. -/
theorem splineFGen_zero_eq (s : bspline) (x : ℚ) (q : ℕ) (le re : Bool) :
    s.splineFGen x 0 (q + 1) le re =
      indicator_f x (s.splineSGen 0 (q + 1) le re) true false *
        linearR x (s.splineSGenQ 0 (q + 1)) ^ (q + 1) := by
  simp [bspline.splineFGen]

/-- The last-index branch of `splineFGen` at positive sub-degree. -/
theorem splineFGen_last_eq (s : bspline) (x : ℚ) (q : ℕ) (le re : Bool) (i : ℕ)
    (hi : i = s.num_invls + (q + 1) - 1) (h0 : i ≠ 0) :
    s.splineFGen x i (q + 1) le re =
      indicator_f x (s.splineSGen i (q + 1) le re) true true *
        linearL x (s.splineSGenQ i (q + 1)) ^ (q + 1) := by
  simp only [bspline.splineFGen]
  rw [if_neg h0, if_pos hi]

/-- The interior branch of `splineFGen` at positive sub-degree. -/
theorem splineFGen_interior_eq (s : bspline) (x : ℚ) (q : ℕ) (le re : Bool) (i : ℕ)
    (h0 : i ≠ 0) (hk : i ≠ s.num_invls + (q + 1) - 1) :
    s.splineFGen x i (q + 1) le re =
      s.splineFGen x (i - 1) q le re * linearL x (s.splineSGenQ (i - 1) q) +
        s.splineFGen x i q le re * linearR x (s.splineSGenQ i q) := by
  simp only [bspline.splineFGen]
  rw [if_neg h0, if_neg hk]

/-- Supports in the asserted index range are nondegenerate. -/
theorem splineSGenQ_lt (s : bspline) (hWF : s.WF) {i p : ℕ}
    (hi : i ≤ s.num_invls + p - 1) :
    (s.splineSGenQ i p).1 < (s.splineSGenQ i p).2 := by
  have hn1 := num_invls_pos hWF
  have hnl := num_invls_lt_len hWF
  refine kn_lt hWF.1 ?_ ?_ <;> omega

/-- The support of index 0 at any sub-degree is the first interval. -/
theorem splineSGen_zero (s : bspline) (hn1 : 1 ≤ s.num_invls) (p : ℕ) :
    s.splineSGen 0 p false false = (EB.fin (s.kn 0), EB.fin (s.kn 1)) := by
  unfold bspline.splineSGen
  rw [if_neg (by simp), if_neg (by simp)]
  have : min (0 + 1) s.num_invls = 1 := by omega
  rw [Nat.zero_sub, this]

/-- The unextended support pair of index 0 at any sub-degree. -/
theorem splineSGenQ_zero (s : bspline) (hn1 : 1 ≤ s.num_invls) (p : ℕ) :
    s.splineSGenQ 0 p = (s.kn 0, s.kn 1) := by
  unfold bspline.splineSGenQ
  have : min (0 + 1) s.num_invls = 1 := by omega
  rw [Nat.zero_sub, this]

/-- The support of the last index at sub-degree `p` is the last interval. -/
theorem splineSGen_last (s : bspline) (hn1 : 1 ≤ s.num_invls) (p : ℕ) :
    s.splineSGen (s.num_invls + p - 1) p false false =
      (EB.fin (s.kn (s.num_invls - 1)), EB.fin (s.kn s.num_invls)) := by
  unfold bspline.splineSGen
  rw [if_neg (by simp), if_neg (by simp)]
  have e1 : s.num_invls + p - 1 - p = s.num_invls - 1 := by omega
  have e2 : min (s.num_invls + p - 1 + 1) s.num_invls = s.num_invls := by omega
  rw [e1, e2]

/-- The unextended support pair of the last index at sub-degree `p`. -/
theorem splineSGenQ_last (s : bspline) (hn1 : 1 ≤ s.num_invls) (p : ℕ) :
    s.splineSGenQ (s.num_invls + p - 1) p = (s.kn (s.num_invls - 1), s.kn s.num_invls) := by
  unfold bspline.splineSGenQ
  have e1 : s.num_invls + p - 1 - p = s.num_invls - 1 := by omega
  have e2 : min (s.num_invls + p - 1 + 1) s.num_invls = s.num_invls := by omega
  rw [e1, e2]

/-- The degree-0 basis functions sum to 1 on `[knots[0], knots[-1])`: the
half-open intervals (closed at the very end) tile the domain, so exactly one
indicator fires. -/
theorem sum_indicator_base (s : bspline) (hWF : s.WF) (x : ℚ)
    (h0 : s.kn 0 ≤ x) (hn : x < s.kn s.num_invls) :
    ∑ i ∈ Finset.range s.num_invls, s.splineFGen x i 0 false false = 1 := by
  have hn1 := num_invls_pos hWF
  have hnl := num_invls_lt_len hWF
  have hs := hWF.1
  have hT : ((Finset.range s.num_invls).filter (fun i => s.kn i ≤ x)).Nonempty :=
    ⟨0, Finset.mem_filter.mpr ⟨Finset.mem_range.mpr (by omega), h0⟩⟩
  obtain ⟨hjT, hjmax⟩ :
      (((Finset.range s.num_invls).filter (fun i => s.kn i ≤ x)).max' hT ∈
        (Finset.range s.num_invls).filter (fun i => s.kn i ≤ x)) ∧
      ∀ m ∈ (Finset.range s.num_invls).filter (fun i => s.kn i ≤ x),
        m ≤ ((Finset.range s.num_invls).filter (fun i => s.kn i ≤ x)).max' hT :=
    ⟨Finset.max'_mem _ hT, fun m hm => Finset.le_max' _ m hm⟩
  set j := ((Finset.range s.num_invls).filter (fun i => s.kn i ≤ x)).max' hT with hj
  have hjn : j < s.num_invls := Finset.mem_range.mp (Finset.mem_filter.mp hjT).1
  have hjx : s.kn j ≤ x := (Finset.mem_filter.mp hjT).2
  have hnext : x < s.kn (j + 1) := by
    rcases eq_or_lt_of_le (Nat.succ_le_of_lt hjn) with he | hlt
    · have he2 : j + 1 = s.num_invls := he
      rw [he2]; exact hn
    · by_contra hcon
      push_neg at hcon
      have hmem : j + 1 ∈ (Finset.range s.num_invls).filter (fun i => s.kn i ≤ x) :=
        Finset.mem_filter.mpr ⟨Finset.mem_range.mpr hlt, hcon⟩
      have := hjmax _ hmem
      omega
  rw [Finset.sum_eq_single_of_mem j (Finset.mem_range.mpr hjn)]
  · show indicator_f x (s.splineSGen j 0 false false) true (decide (j = s.num_invls - 1)) = 1
    have hb2 : (s.splineSGen j 0 false false).2 = EB.fin (s.kn (j + 1)) := by
      rw [splineSGen_snd]
      have hm : min (j + 1) s.num_invls = j + 1 := by omega
      rw [hm]
    exact indicator_f_one (splineSGen_fst s j 0 false) hb2 hjx hnext
  · intro i hi hij
    rw [Finset.mem_range] at hi
    show indicator_f x (s.splineSGen i 0 false false) true (decide (i = s.num_invls - 1)) = 0
    rcases lt_or_gt_of_ne hij with hlt | hgt
    · have hine : (decide (i = s.num_invls - 1)) = false := by
        simp only [decide_eq_false_iff_not]
        omega
      rw [hine]
      refine indicator_f_zero_of_le_right (splineSGen_snd s i 0 true) ?_
      have hm : min (i + 1) s.num_invls = i + 1 := by omega
      rw [hm]
      exact le_trans (kn_le hs (by omega) (by omega)) hjx
    · refine indicator_f_zero_left (splineSGen_fst s i 0 _) ?_
      exact lt_of_lt_of_le hnext (kn_le hs (by omega) (by omega))

/-- Left-boundary degree elevation: below the last knot, the first basis of
degree `q+1` is the first degree-`q` basis times the falling ramp over the
first interval. -/
theorem splineF_left_step (s : bspline) (hWF : s.WF) (x : ℚ)
    (hx : x < s.kn s.num_invls) (q : ℕ) :
    s.splineFGen x 0 (q + 1) false false =
      s.splineFGen x 0 q false false * linearR x (s.splineSGenQ 0 q) := by
  have hn1 := num_invls_pos hWF
  cases q with
  | zero =>
      rw [splineFGen_zero_eq, splineSGen_zero s hn1, splineSGenQ_zero s hn1, pow_one]
      show _ = indicator_f x (s.splineSGen 0 0 false false) true
        (decide (0 = s.num_invls - 1)) * linearR x (s.splineSGenQ 0 0)
      rw [splineSGen_zero s hn1, splineSGenQ_zero s hn1]
      by_cases hn2 : s.num_invls = 1
      · have hd : (decide (0 = s.num_invls - 1)) = true := by simp [hn2]
        rw [hd]
        have hx1 : x < s.kn 1 := by rw [← hn2]; exact hx
        unfold indicator_f
        simp [EB.leQ, qLeEB, qLtEB, hx1, le_of_lt hx1]
      · have hd : (decide (0 = s.num_invls - 1)) = false := by
          simp only [decide_eq_false_iff_not]
          omega
        rw [hd]
  | succ q' =>
      rw [splineFGen_zero_eq, splineFGen_zero_eq, splineSGen_zero s hn1, splineSGen_zero s hn1,
        splineSGenQ_zero s hn1, splineSGenQ_zero s hn1]
      ring

/-- Right-boundary degree elevation: the last basis of degree `q+1` is the
last degree-`q` basis times the rising ramp over the last interval. -/
theorem splineF_right_step (s : bspline) (hWF : s.WF) (x : ℚ) (q : ℕ) :
    s.splineFGen x (s.num_invls + q) (q + 1) false false =
      s.splineFGen x (s.num_invls + q - 1) q false false *
        linearL x (s.splineSGenQ (s.num_invls + q - 1) q) := by
  have hn1 := num_invls_pos hWF
  cases q with
  | zero =>
      rw [splineFGen_last_eq s x 0 false false (s.num_invls + 0) (by omega) (by omega)]
      have e0 : s.num_invls + 0 = s.num_invls + 1 - 1 := by omega
      rw [e0, splineSGen_last s hn1 1, splineSGenQ_last s hn1 1, pow_one]
      show _ = indicator_f x (s.splineSGen (s.num_invls + 0 - 1) 0 false false) true
        (decide (s.num_invls + 0 - 1 = s.num_invls - 1)) *
          linearL x (s.splineSGenQ (s.num_invls + 0 - 1) 0)
      rw [splineSGen_last s hn1 0, splineSGenQ_last s hn1 0]
      have hd : (decide (s.num_invls + 0 - 1 = s.num_invls - 1)) = true := by simp
      rw [hd]
  | succ q' =>
      have eS : s.splineSGen (s.num_invls + (q' + 1)) (q' + 2) false false =
          (EB.fin (s.kn (s.num_invls - 1)), EB.fin (s.kn s.num_invls)) := by
        have e1 : s.num_invls + (q' + 1) = s.num_invls + (q' + 2) - 1 := by omega
        rw [e1]; exact splineSGen_last s hn1 (q' + 2)
      have eSQ : s.splineSGenQ (s.num_invls + (q' + 1)) (q' + 2) =
          (s.kn (s.num_invls - 1), s.kn s.num_invls) := by
        have e1 : s.num_invls + (q' + 1) = s.num_invls + (q' + 2) - 1 := by omega
        rw [e1]; exact splineSGenQ_last s hn1 (q' + 2)
      rw [splineFGen_last_eq s x (q' + 1) false false (s.num_invls + (q' + 1)) (by omega)
        (by omega), eS, eSQ]
      rw [splineFGen_last_eq s x q' false false (s.num_invls + (q' + 1) - 1) (by omega)
        (by omega), splineSGen_last s hn1 (q' + 1), splineSGenQ_last s hn1 (q' + 1)]
      ring

/-- One degree-elevation step of the partition-of-unity telescoping: below
the last knot, the degree-(q+1) sum regroups into the degree-q sum because
each degree-q basis is blended with total ramp weight
`linear_lf + linear_rf = 1`. -/
theorem sum_splineF_step (s : bspline) (hWF : s.WF) (x : ℚ)
    (hx : x < s.kn s.num_invls) (q : ℕ) :
    ∑ i ∈ Finset.range (s.num_invls + (q + 1)), s.splineFGen x i (q + 1) false false =
      ∑ i ∈ Finset.range (s.num_invls + q), s.splineFGen x i q false false := by
  have hn1 := num_invls_pos hWF
  rw [show s.num_invls + (q + 1) = (s.num_invls + q) + 1 from by omega]
  have hterm : ∀ i ∈ Finset.range ((s.num_invls + q) + 1),
      s.splineFGen x i (q + 1) false false =
        (if 1 ≤ i then
          s.splineFGen x (i - 1) q false false * linearL x (s.splineSGenQ (i - 1) q) else 0) +
        (if i < s.num_invls + q then
          s.splineFGen x i q false false * linearR x (s.splineSGenQ i q) else 0) := by
    intro i hi
    rw [Finset.mem_range] at hi
    by_cases h0 : i = 0
    · subst h0
      rw [if_neg (by omega), if_pos (by omega), zero_add]
      exact splineF_left_step s hWF x hx q
    · by_cases hk : i = s.num_invls + q
      · subst hk
        rw [if_pos (by omega), if_neg (by omega), add_zero]
        exact splineF_right_step s hWF x q
      · rw [if_pos (by omega), if_pos (by omega)]
        exact splineFGen_interior_eq s x q false false i h0 (by omega)
  rw [Finset.sum_congr rfl hterm, Finset.sum_add_distrib, Finset.sum_range_succ',
    Finset.sum_range_succ]
  have eA : (∑ i ∈ Finset.range (s.num_invls + q),
      (if 1 ≤ i + 1 then
        s.splineFGen x (i + 1 - 1) q false false * linearL x (s.splineSGenQ (i + 1 - 1) q)
      else 0)) =
      ∑ i ∈ Finset.range (s.num_invls + q),
        s.splineFGen x i q false false * linearL x (s.splineSGenQ i q) := by
    refine Finset.sum_congr rfl fun i _ => ?_
    rw [if_pos (by omega), Nat.add_sub_cancel]
  have eB : (if 1 ≤ (0 : ℕ) then
      s.splineFGen x (0 - 1) q false false * linearL x (s.splineSGenQ (0 - 1) q)
    else 0) = 0 := by
    rw [if_neg (by omega)]
  have eC : (if s.num_invls + q < s.num_invls + q then
      s.splineFGen x (s.num_invls + q) q false false *
        linearR x (s.splineSGenQ (s.num_invls + q) q)
    else 0) = 0 := by
    rw [if_neg (by omega)]
  have eD : (∑ i ∈ Finset.range (s.num_invls + q),
      (if i < s.num_invls + q then
        s.splineFGen x i q false false * linearR x (s.splineSGenQ i q) else 0)) =
      ∑ i ∈ Finset.range (s.num_invls + q),
        s.splineFGen x i q false false * linearR x (s.splineSGenQ i q) := by
    refine Finset.sum_congr rfl fun i hi => ?_
    rw [Finset.mem_range] at hi
    rw [if_pos hi]
  rw [eA, eB, eC, eD, add_zero, add_zero, ← Finset.sum_add_distrib]
  refine Finset.sum_congr rfl ?_
  intro i hi
  rw [Finset.mem_range] at hi
  have hlt : (s.splineSGenQ i q).1 < (s.splineSGenQ i q).2 :=
    splineSGenQ_lt s hWF (by omega)
  have := linear_lf_add_rf x (s.splineSGenQ i q) hlt
  show s.splineFGen x i q false false * linearL x (s.splineSGenQ i q) +
      s.splineFGen x i q false false * linearR x (s.splineSGenQ i q) =
    s.splineFGen x i q false false
  rw [← mul_add]
  unfold linearL linearR at *
  rw [this, mul_one]

/-- C3 (confirmed): partition of unity.  For every well-formed model of any
degree and every `x` strictly between the first and the last knot, the
basis values over all `num_spline_bases` indices (no extrapolation) sum
exactly to 1. -/
theorem splineF_partition_of_unity (s : bspline) (hWF : s.WF) (x : ℚ)
    (h0 : s.kn 0 < x) (hn : x < s.kn s.num_invls) :
    ∑ i ∈ Finset.range s.num_spline_bases, s.splineF x i false false = 1 := by
  have main : ∀ q, ∑ i ∈ Finset.range (s.num_invls + q),
      s.splineFGen x i q false false = 1 := by
    intro q
    induction q with
    | zero => simpa using sum_indicator_base s hWF x (le_of_lt h0) hn
    | succ q ih => rw [sum_splineF_step s hWF x hn q]; exact ih
  simpa [bspline.splineF, bspline.num_spline_bases] using main s.degree

/-- Reading the accumulated error through one loop iteration. -/
theorem bucketStep_error (a x : ℚ) (order : ℕ) (funcs : List PieceFun) (knots : List ℚ)
    (e : String) (p : ℕ × ℕ) :
    bucketStep a x order funcs knots (Except.error e) p = Except.error e := rfl

/-- One loop iteration on an intact accumulator: integrate the spanned slice
where both masks hold, otherwise keep the accumulator. -/
theorem bucketStep_ok (a x : ℚ) (order : ℕ) (funcs : List PieceFun) (knots : List ℚ)
    (v : ℚ) (p : ℕ × ℕ) :
    bucketStep a x order funcs knots (Except.ok v) p =
      if a_ind a knots p.1 && x_ind x knots p.2 then
        integrate_across_pieces order a x ((funcs.drop p.1).take (p.2 - p.1 + 1))
          ((knots.drop p.1).take (p.2 - p.1))
      else Except.ok v := rfl

/-- `integrate_across_pieces` succeeds whenever its piece/knot invariant
holds, the knots are strictly increasing, and the bounds lie strictly
outside them: the preconditions reproduce themselves down the recursion. -/
theorem integrate_ok (order : ℕ) :
    ∀ (fs : List PieceFun) (ks : List ℚ) (a x : ℚ),
      fs.length = ks.length + 1 →
      ks.Sorted (· < ·) →
      (ks ≠ [] → a < ks.getD 0 0 ∧ ks.getD (ks.length - 1) 0 < x) →
      ∃ v, integrate_across_pieces order a x fs ks = Except.ok v := by
  intro fs
  induction fs with
  | nil => intro ks a x hlen; simp at hlen
  | cons f fs ih =>
      intro ks a x hlen hsort hout
      cases fs with
      | nil => cases ks <;> exact ⟨f a x order, rfl⟩
      | cons f₂ fs' =>
          cases ks with
          | nil => simp at hlen
          | cons b ks' =>
              have hb : a < b := (hout (by simp)).1
              have hlast : (b :: ks').getD ((b :: ks').length - 1) 0 < x :=
                (hout (by simp)).2
              have hlastx : (b :: ks').getLast (List.cons_ne_nil b ks') < x := by
                rw [List.getLast_eq_getElem]
                rw [List.getD_eq_getElem?_getD,
                  List.getElem?_eq_getElem (by simp : (b :: ks').length - 1 <
                    (b :: ks').length)] at hlast
                simpa using hlast
              have hpre : ks' ≠ [] → b < ks'.getD 0 0 ∧ ks'.getD (ks'.length - 1) 0 < x := by
                intro hne
                constructor
                · have hmem : ks'.getD 0 0 ∈ ks' := by
                    cases ks' with
                    | nil => exact absurd rfl hne
                    | cons c t => exact List.mem_cons_self c t
                  exact (List.sorted_cons.mp hsort).1 _ hmem
                · cases ks' with
                  | nil => exact absurd rfl hne
                  | cons c t => simpa [List.getD_cons_succ] using hlast
              obtain ⟨v, hv⟩ := ih ks' b x (by simpa using hlen)
                (List.sorted_cons.mp hsort).2 hpre
              refine ⟨v + ∑ j ∈ Finset.range order,
                f a b (order - j) * (x - b) ^ j / (Nat.factorial j : ℚ), ?_⟩
              show (if a < b ∧ (b :: ks').getLast (List.cons_ne_nil b ks') < x then _
                else _) = _
              rw [if_pos ⟨hb, hlastx⟩, hv]

/-- A triggered bucket integrates successfully: the masks at `(ia, ix)` are
exactly the strict-outsideness preconditions of the sliced call, and the
slice keeps the piece/knot length invariant. -/
theorem bucket_ok (a x : ℚ) (order : ℕ) (funcs : List PieceFun) (knots : List ℚ)
    (hlen : funcs.length = knots.length + 1) (hsort : knots.Sorted (· < ·))
    {ia ix : ℕ} (hiaix : ia ≤ ix) (hixlen : ix < funcs.length)
    (hA : a_ind a knots ia = true) (hX : x_ind x knots ix = true) :
    ∃ v, integrate_across_pieces order a x ((funcs.drop ia).take (ix - ia + 1))
      ((knots.drop ia).take (ix - ia)) = Except.ok v := by
  have hklen : ix ≤ knots.length := by omega
  apply integrate_ok
  · rw [List.length_take, List.length_take, List.length_drop, List.length_drop, hlen]
    omega
  · exact List.Pairwise.sublist ((List.take_sublist _ _).trans (List.drop_sublist _ _)) hsort
  · intro hne
    have hpos : 0 < ((knots.drop ia).take (ix - ia)).length := List.length_pos.mpr hne
    rw [List.length_take, List.length_drop] at hpos
    have hia_lt : ia < knots.length := by omega
    have hialtx : ia < ix := by omega
    constructor
    · have e : ((knots.drop ia).take (ix - ia)).getD 0 0 = knots.getD ia 0 := by
        rw [List.getD_eq_getElem?_getD, List.getElem?_take, if_pos (by omega),
          List.getElem?_drop, Nat.add_zero, ← List.getD_eq_getElem?_getD]
      rw [e]
      unfold a_ind at hA
      by_cases h0 : ia = 0
      · subst h0
        simpa using hA
      · rw [if_neg h0, if_pos hia_lt] at hA
        simp only [Bool.and_eq_true, decide_eq_true_eq] at hA
        exact hA.2
    · have e : ((knots.drop ia).take (ix - ia)).getD
          (((knots.drop ia).take (ix - ia)).length - 1) 0 = knots.getD (ix - 1) 0 := by
        rw [List.length_take, List.length_drop]
        rw [List.getD_eq_getElem?_getD, List.getElem?_take, if_pos (by omega),
          List.getElem?_drop, ← List.getD_eq_getElem?_getD]
        congr 1
        omega
      rw [e]
      unfold x_ind at hX
      by_cases hx0 : ix = 0
      · omega
      · by_cases hxlt : ix < knots.length
        · rw [if_neg hx0, if_pos hxlt] at hX
          simp only [Bool.and_eq_true, decide_eq_true_eq] at hX
          exact hX.1
        · rw [if_neg hx0, if_neg hxlt] at hX
          simp only [decide_eq_true_eq] at hX
          have hw : ix - 1 = knots.length - 1 := by omega
          rw [hw]
          exact hX

/-- Every pair the double loop visits satisfies `ia ≤ ix < len(funcs)`. -/
theorem bucketPairs_bound (m : ℕ) : ∀ p ∈ bucketPairs m, p.1 ≤ p.2 ∧ p.2 < m := by
  intro p hp
  unfold bucketPairs at hp
  rw [List.mem_flatMap] at hp
  obtain ⟨ia, hia, hmem⟩ := hp
  rw [List.mem_map] at hmem
  obtain ⟨ix, hix, rfl⟩ := hmem
  rw [List.mem_range] at hia
  rw [List.mem_range'_1] at hix
  exact ⟨hix.1, by omega⟩

/-- The double loop keeps an intact accumulator: every triggered bucket
integrates successfully. -/
theorem foldl_bucket_ok (a x : ℚ) (order : ℕ) (funcs : List PieceFun)
    (knots : List ℚ) (hlen : funcs.length = knots.length + 1)
    (hsort : knots.Sorted (· < ·)) :
    ∀ (l : List (ℕ × ℕ)), (∀ p ∈ l, p.1 ≤ p.2 ∧ p.2 < funcs.length) → ∀ v : ℚ,
      ∃ w, l.foldl (bucketStep a x order funcs knots) (Except.ok v) = Except.ok w := by
  intro l
  induction l with
  | nil => intro _ v; exact ⟨v, rfl⟩
  | cons p l ih =>
      intro hb v
      rw [List.foldl_cons, bucketStep_ok]
      by_cases hc : (a_ind a knots p.1 && x_ind x knots p.2) = true
      · rw [if_pos hc]
        rw [Bool.and_eq_true] at hc
        obtain ⟨hp1, hp2⟩ := hb p (List.mem_cons_self p l)
        obtain ⟨w₀, hw₀⟩ := bucket_ok a x order funcs knots hlen hsort hp1 hp2 hc.1 hc.2
        rw [hw₀]
        exact ih (fun q hq => hb q (List.mem_cons_of_mem p hq)) w₀
      · rw [if_neg hc]
        exact ih (fun q hq => hb q (List.mem_cons_of_mem p hq)) v

/-- C7 (confirmed): from the public entry point `pieces_if` with equal-size
bounds `a ≤ x`, `len(funcs) == len(knots) + 1` and strictly increasing
knots, every internal `integrate_across_pieces` call satisfies its
preconditions, so no internal assertion fires; with at least one knot the
call returns a value.  (Scalar semantics; the vectorised source applies it
per component within each mask bucket.) -/
theorem pieces_if_no_assertion (a x : ℚ) (order : ℕ) (funcs : List PieceFun)
    (knots : List ℚ) (hax : a ≤ x) (hlen : funcs.length = knots.length + 1)
    (hsort : knots.Sorted (· < ·)) :
    pieces_if a x order funcs knots ≠ Except.error "AssertionError" ∧
      (knots ≠ [] → ∃ v, pieces_if a x order funcs knots = Except.ok v) := by
  unfold pieces_if
  rw [if_neg (by simpa using hax), if_neg (by simpa using hlen)]
  by_cases hk : knots.isEmpty
  · rw [if_pos hk]
    exact ⟨by simp, fun hne => absurd (List.isEmpty_iff.mp hk) hne⟩
  · rw [if_neg hk]
    obtain ⟨w, hw⟩ := foldl_bucket_ok a x order funcs knots hlen hsort
      (bucketPairs funcs.length) (bucketPairs_bound funcs.length) 0
    rw [hw]
    exact ⟨by simp, fun _ => ⟨w, rfl⟩⟩

/-- Witness for C7: the three-piece indicator integrand over knots `[0, 1]`
with bounds `−1 ≤ 2` integrates without an assertion. -/
theorem pieces_if_no_assertion_witness :
    pieces_if (-1) 2 1
      [fun a x order => constant_if a x order 0,
       fun a x order => constant_if a x order 1,
       fun a x order => constant_if a x order 0] [0, 1] ≠
        Except.error "AssertionError" ∧
      (([0, 1] : List ℚ) ≠ [] → ∃ v, pieces_if (-1) 2 1
        [fun a x order => constant_if a x order 0,
         fun a x order => constant_if a x order 1,
         fun a x order => constant_if a x order 0] [0, 1] = Except.ok v) :=
  pieces_if_no_assertion (-1) 2 1 _ [0, 1] (by norm_num) (by simp)
    (by norm_num [List.Sorted])

/-- Closed form of the n-fold repeated integral of the indicator of `[l, r]`
from `a` to `x` (for `n ≥ 1` and `a ≤ x`): clamping both bounds into the
interval gives `((x − clamp a)^n − (x − clamp x)^n) / n!`. -/
def intCF (n : ℕ) (a x l r : ℚ) : ℚ :=
  ((x - max l (min a r)) ^ n - (x - max l (min x r)) ^ n) / (Nat.factorial n : ℚ)

/-- Binomial regrouping of the integrator's Taylor-shift sums:
`∑_{j<n} v^(n−j)/(n−j)! · u^j/j! = ((u+v)^n − u^n)/n!`. -/
theorem sum_shift_pow (n : ℕ) (u v : ℚ) :
    ∑ j ∈ Finset.range n, v ^ (n - j) / (Nat.factorial (n - j) : ℚ) * u ^ j /
      (Nat.factorial j : ℚ) = ((u + v) ^ n - u ^ n) / (Nat.factorial n : ℚ) := by
  have h := add_pow u v n
  rw [Finset.sum_range_succ] at h
  have h2 : ∑ k ∈ Finset.range n, u ^ k * v ^ (n - k) * (Nat.choose n k : ℚ) =
      (u + v) ^ n - u ^ n := by
    rw [h]
    simp [Nat.choose_self, Nat.sub_self]
  rw [← h2, Finset.sum_div]
  refine Finset.sum_congr rfl fun j hj => ?_
  rw [Finset.mem_range] at hj
  have hfac : (Nat.factorial n : ℚ) =
      (Nat.choose n j : ℚ) * (Nat.factorial j : ℚ) * (Nat.factorial (n - j) : ℚ) := by
    exact_mod_cast (Nat.choose_mul_factorial_mul_factorial (le_of_lt hj)).symm
  have hj1 : (Nat.factorial j : ℚ) ≠ 0 := Nat.cast_ne_zero.mpr (Nat.factorial_ne_zero j)
  have hj2 : (Nat.factorial (n - j) : ℚ) ≠ 0 := Nat.cast_ne_zero.mpr (Nat.factorial_ne_zero _)
  have hc : (Nat.choose n j : ℚ) ≠ 0 :=
    Nat.cast_ne_zero.mpr (Nat.not_eq_zero_of_lt (Nat.choose_pos (le_of_lt hj)))
  rw [hfac]
  field_simp
  ring

/-- The repeated integral of an indicator, exactly: for `n ≥ 1`, `l < r` and
`a ≤ x`, `indicator_if` returns the closed form `intCF`.  Case analysis over
where the two bounds fall relative to the interval: each mask bucket's
`integrate_across_pieces` call evaluates to a Taylor-shift sum that the
binomial identity folds into the clamped closed form. -/
theorem indicator_if_eval (n : ℕ) (hn : n ≠ 0) (a x l r : ℚ) (hlr : l < r)
    (hax : a ≤ x) : indicator_if a x n (l, r) = Except.ok (intCF n a x l r) := by
  have hp : bucketPairs 3 = [(0, 0), (0, 1), (0, 2), (1, 1), (1, 2), (2, 2)] := by decide
  have hstart : ∀ V : ℚ,
      (List.foldl (bucketStep a x n
        [fun a x order => constant_if a x order 0,
         fun a x order => constant_if a x order 1,
         fun a x order => constant_if a x order 0] [l, r]) (Except.ok 0)
        [(0, 0), (0, 1), (0, 2), (1, 1), (1, 2), (2, 2)] = Except.ok V) →
      indicator_if a x n (l, r) = Except.ok V := by
    intro V hV
    unfold indicator_if pieces_if
    rw [if_neg (by simpa using hax), if_neg (by simp), if_neg (by simp)]
    simp only [List.length_cons, List.length_nil]
    rw [hp]
    exact hV
  rcases lt_or_le a l with ha | ha
  · have ha0 : a_ind a [l, r] 0 = true := by simp [a_ind, ha]
    have ha1 : a_ind a [l, r] 1 = false := by simp [a_ind, not_le.mpr ha]
    have ha2 : a_ind a [l, r] 2 = false := by
      simp [a_ind, not_le.mpr (lt_trans ha hlr)]
    rcases le_or_lt x l with hx | hx
    · -- a < l, x ≤ l
      have hx0 : x_ind x [l, r] 0 = true := by simp [x_ind, hx]
      have hx1 : x_ind x [l, r] 1 = false := by simp [x_ind, not_lt.mpr hx]
      have hx2 : x_ind x [l, r] 2 = false := by
        simp [x_ind, not_lt.mpr (le_trans hx (le_of_lt hlr))]
      rw [hstart 0 (by simp [bucketStep_ok, ha0, ha1, ha2, hx0, hx1, hx2,
        integrate_across_pieces, constant_if])]
      unfold intCF
      rw [min_eq_left (le_of_lt (lt_trans ha hlr)), max_eq_left (le_of_lt ha),
        min_eq_left (le_trans hx (le_of_lt hlr)), max_eq_left hx]
      simp
    · rcases le_or_lt x r with hx2 | hx2
      · -- a < l, l < x ≤ r
        have hx0 : x_ind x [l, r] 0 = false := by simp [x_ind, not_le.mpr hx]
        have hx1 : x_ind x [l, r] 1 = true := by simp [x_ind, hx, hx2]
        have hx2' : x_ind x [l, r] 2 = false := by simp [x_ind, not_lt.mpr hx2]
        rw [hstart ((x - l) ^ n / (Nat.factorial n : ℚ)) (by
          simp [bucketStep_ok, ha0, ha1, ha2, hx0, hx1, hx2', integrate_across_pieces,
            constant_if, ha, hx])]
        unfold intCF
        rw [min_eq_left (le_of_lt (lt_trans ha hlr)), max_eq_left (le_of_lt ha),
          min_eq_left hx2, max_eq_right (le_of_lt hx)]
        rw [sub_self, zero_pow hn, sub_zero]
      · -- a < l, r < x
        have hx0 : x_ind x [l, r] 0 = false := by
          simp [x_ind, not_le.mpr (lt_trans hlr hx2)]
        have hx1 : x_ind x [l, r] 1 = false := by simp [x_ind, not_le.mpr hx2]
        have hx2' : x_ind x [l, r] 2 = true := by simp [x_ind, hx2]
        rw [hstart (∑ j ∈ Finset.range n, (r - l) ^ (n - j) /
            (Nat.factorial (n - j) : ℚ) * (x - r) ^ j / (Nat.factorial j : ℚ)) (by
          simp [bucketStep_ok, ha0, ha1, ha2, hx0, hx1, hx2', integrate_across_pieces,
            constant_if, ha, hlr, hx2])]
        unfold intCF
        rw [min_eq_left (le_of_lt (lt_trans ha hlr)), max_eq_left (le_of_lt ha),
          min_eq_right (le_of_lt hx2), max_eq_right (le_of_lt hlr)]
        rw [sum_shift_pow n (x - r) (r - l),
          show x - r + (r - l) = x - l from by ring]
  · have ha0 : a_ind a [l, r] 0 = false := by simp [a_ind, not_lt.mpr ha]
    rcases lt_or_le a r with har | har
    · have ha1 : a_ind a [l, r] 1 = true := by simp [a_ind, ha, har]
      have ha2 : a_ind a [l, r] 2 = false := by simp [a_ind, not_le.mpr har]
      rcases le_or_lt x l with hx | hx
      · -- l ≤ a < r, x ≤ l: forces a = x = l
        have hal : a = l := le_antisymm (le_trans hax hx) ha
        have hxl : x = l := le_antisymm hx (hal ▸ hax)
        have hx0 : x_ind x [l, r] 0 = true := by simp [x_ind, hx]
        have hx1 : x_ind x [l, r] 1 = false := by simp [x_ind, not_lt.mpr hx]
        have hx2 : x_ind x [l, r] 2 = false := by
          simp [x_ind, not_lt.mpr (le_trans hx (le_of_lt hlr))]
        rw [hstart 0 (by simp [bucketStep_ok, ha0, ha1, ha2, hx0, hx1, hx2])]
        unfold intCF
        rw [hal, hxl]
        simp
      · rcases le_or_lt x r with hxr | hxr
        · -- l ≤ a < r, l < x ≤ r
          have hx0 : x_ind x [l, r] 0 = false := by simp [x_ind, not_le.mpr hx]
          have hx1 : x_ind x [l, r] 1 = true := by simp [x_ind, hx, hxr]
          have hx2 : x_ind x [l, r] 2 = false := by simp [x_ind, not_lt.mpr hxr]
          rw [hstart ((x - a) ^ n / (Nat.factorial n : ℚ)) (by
            simp [bucketStep_ok, ha0, ha1, ha2, hx0, hx1, hx2,
              integrate_across_pieces, constant_if])]
          unfold intCF
          rw [min_eq_left (le_of_lt har), max_eq_right ha, min_eq_left hxr,
            max_eq_right (le_of_lt hx)]
          rw [sub_self, zero_pow hn, sub_zero]
        · -- l ≤ a < r, r < x
          have hx0 : x_ind x [l, r] 0 = false := by
            simp [x_ind, not_le.mpr (lt_trans hlr hxr)]
          have hx1 : x_ind x [l, r] 1 = false := by simp [x_ind, not_le.mpr hxr]
          have hx2 : x_ind x [l, r] 2 = true := by simp [x_ind, hxr]
          rw [hstart (∑ j ∈ Finset.range n, (r - a) ^ (n - j) /
              (Nat.factorial (n - j) : ℚ) * (x - r) ^ j / (Nat.factorial j : ℚ)) (by
            simp [bucketStep_ok, ha0, ha1, ha2, hx0, hx1, hx2,
              integrate_across_pieces, constant_if, har, hxr])]
          unfold intCF
          rw [min_eq_left (le_of_lt har), max_eq_right ha, min_eq_right (le_of_lt hxr),
            max_eq_right (le_of_lt hlr)]
          rw [sum_shift_pow n (x - r) (r - a),
            show x - r + (r - a) = x - a from by ring]
    · have ha1 : a_ind a [l, r] 1 = false := by simp [a_ind, not_lt.mpr har]
      have ha2 : a_ind a [l, r] 2 = true := by simp [a_ind, har]
      rcases le_or_lt x r with hxr | hxr
      · -- r ≤ a, x ≤ r: forces a = x = r
        have har2 : a = r := le_antisymm (le_trans hax hxr) har
        have hxr2 : x = r := le_antisymm hxr (har2 ▸ hax)
        have hx0 : x_ind x [l, r] 0 = false := by
          simp [x_ind, not_le.mpr (show l < x from hxr2 ▸ hlr)]
        have hx1 : x_ind x [l, r] 1 = true := by
          simp [x_ind, show l < x from hxr2 ▸ hlr, hxr]
        have hx2 : x_ind x [l, r] 2 = false := by simp [x_ind, not_lt.mpr hxr]
        rw [hstart 0 (by simp [bucketStep_ok, ha0, ha1, ha2, hx0, hx1, hx2])]
        unfold intCF
        rw [har2, hxr2]
        simp
      · -- r ≤ a, r < x
        have hx0 : x_ind x [l, r] 0 = false := by
          simp [x_ind, not_le.mpr (lt_trans hlr hxr)]
        have hx1 : x_ind x [l, r] 1 = false := by simp [x_ind, not_le.mpr hxr]
        have hx2 : x_ind x [l, r] 2 = true := by simp [x_ind, hxr]
        rw [hstart 0 (by simp [bucketStep_ok, ha0, ha1, ha2, hx0, hx1, hx2,
          integrate_across_pieces, constant_if])]
        unfold intCF
        rw [min_eq_right har, max_eq_right (le_of_lt hlr), min_eq_right (le_of_lt hxr),
          max_eq_right (le_of_lt hlr)]
        simp

/-- The value computed by `splineIFGen` under no extrapolation: the same
recursion with the degree-0 base replaced by the indicator integral's closed
form `intCF`. -/
def splineIFVal (s : bspline) (a x : ℚ) : ℕ → ℕ → ℕ → ℚ
  | i, p, 0 => s.splineFGen x i p false false
  | i, 0, n + 1 => intCF (n + 1) a x (s.kn i) (s.kn (min (i + 1) s.num_invls))
  | i, p + 1, n + 1 =>
      (if i = s.num_invls + (p + 1) - 1 then 0
       else
         (x - (s.splineSGenQ i p).2) / ((s.splineSGenQ i p).1 - (s.splineSGenQ i p).2) *
             splineIFVal s a x i p (n + 1) -
           ((n : ℚ) + 1) * splineIFVal s a x i p (n + 2) /
             ((s.splineSGenQ i p).1 - (s.splineSGenQ i p).2)) +
      (if i = 0 then 0
       else
         (x - (s.splineSGenQ (i - 1) p).1) /
             ((s.splineSGenQ (i - 1) p).2 - (s.splineSGenQ (i - 1) p).1) *
             splineIFVal s a x (i - 1) p (n + 1) -
           ((n : ℚ) + 1) * splineIFVal s a x (i - 1) p (n + 2) /
             ((s.splineSGenQ (i - 1) p).2 - (s.splineSGenQ (i - 1) p).1))

/-- Under no extrapolation and ordered bounds, the integral evaluator never
fails and computes `splineIFVal`: the degree-0 base case is the exact
indicator integral, and both recursion sides succeed by induction. -/
theorem splineIFGen_eval (s : bspline) (hWF : s.WF) (a x : ℚ) (hax : a ≤ x) :
    ∀ p i n, i ≤ s.num_invls + p - 1 →
      s.splineIFGen a x i p n false false = Except.ok (splineIFVal s a x i p n) := by
  have hn1 := num_invls_pos hWF
  have hnl := num_invls_lt_len hWF
  intro p
  induction p with
  | zero =>
      intro i n hi
      cases n with
      | zero => rfl
      | succ n =>
          have hS : s.splineSGen i 0 false false =
              (EB.fin (s.kn i), EB.fin (s.kn (min (i + 1) s.num_invls))) := by
            unfold bspline.splineSGen
            rw [if_neg (by simp), if_neg (by simp), Nat.sub_zero]
          show (match s.splineSGen i 0 false false with
            | (EB.fin l, EB.fin r) => indicator_if a x (n + 1) (l, r)
            | _ => Except.error "InfiniteBound") = _
          rw [hS]
          show indicator_if a x (n + 1) (s.kn i, s.kn (min (i + 1) s.num_invls)) = _
          have hm : min (i + 1) s.num_invls = i + 1 := by omega
          rw [indicator_if_eval (n + 1) (by omega) a x _ _
            (by rw [hm]; exact kn_lt hWF.1 (by omega) (by omega)) hax]
          rfl
  | succ p ih =>
      intro i n hi
      cases n with
      | zero => rfl
      | succ n =>
          have hrif : (if i = 0 then Except.ok (0 : ℚ)
              else
                sideIF (s.splineIFGen a x (i - 1) p (n + 1) false false)
                  (s.splineIFGen a x (i - 1) p (n + 2) false false)
                  ((x - (s.splineSGenQ (i - 1) p).1) /
                    ((s.splineSGenQ (i - 1) p).2 - (s.splineSGenQ (i - 1) p).1))
                  ((s.splineSGenQ (i - 1) p).2 - (s.splineSGenQ (i - 1) p).1)
                  ((n : ℚ) + 1)) =
              Except.ok (if i = 0 then 0
                else
                  (x - (s.splineSGenQ (i - 1) p).1) /
                      ((s.splineSGenQ (i - 1) p).2 - (s.splineSGenQ (i - 1) p).1) *
                      splineIFVal s a x (i - 1) p (n + 1) -
                    ((n : ℚ) + 1) * splineIFVal s a x (i - 1) p (n + 2) /
                      ((s.splineSGenQ (i - 1) p).2 - (s.splineSGenQ (i - 1) p).1)) := by
            by_cases hi0 : i = 0
            · rw [if_pos hi0, if_pos hi0]
            · rw [if_neg hi0, if_neg hi0, ih (i - 1) (n + 1) (by omega),
                ih (i - 1) (n + 2) (by omega)]
              rfl
          have hlif : (if i = s.num_invls + (p + 1) - 1 then Except.ok (0 : ℚ)
              else
                sideIF (s.splineIFGen a x i p (n + 1) false false)
                  (s.splineIFGen a x i p (n + 2) false false)
                  ((x - (s.splineSGenQ i p).2) /
                    ((s.splineSGenQ i p).1 - (s.splineSGenQ i p).2))
                  ((s.splineSGenQ i p).1 - (s.splineSGenQ i p).2)
                  ((n : ℚ) + 1)) =
              Except.ok (if i = s.num_invls + (p + 1) - 1 then 0
                else
                  (x - (s.splineSGenQ i p).2) /
                      ((s.splineSGenQ i p).1 - (s.splineSGenQ i p).2) *
                      splineIFVal s a x i p (n + 1) -
                    ((n : ℚ) + 1) * splineIFVal s a x i p (n + 2) /
                      ((s.splineSGenQ i p).1 - (s.splineSGenQ i p).2)) := by
            by_cases hik : i = s.num_invls + (p + 1) - 1
            · rw [if_pos hik, if_pos hik]
            · rw [if_neg hik, if_neg hik, ih i (n + 1) (by omega),
                ih i (n + 2) (by omega)]
              rfl
          simp only [bspline.splineIFGen]
          rw [hrif, hlif]
          rfl

/-- Chasles relation with Taylor shift for the indicator integral's closed
form: splitting the lower bound at `c` costs the shifted lower-order terms.
Pure algebra — no ordering of the bounds is needed. -/
theorem intCF_chasles (n : ℕ) (a c x l r : ℚ) :
    intCF n a x l r = intCF n c x l r +
      ∑ j ∈ Finset.range n, intCF (n - j) a c l r * (x - c) ^ j /
        (Nat.factorial j : ℚ) := by
  have hsplit : ∀ j : ℕ, intCF (n - j) a c l r * (x - c) ^ j / (Nat.factorial j : ℚ) =
      (c - max l (min a r)) ^ (n - j) / (Nat.factorial (n - j) : ℚ) * (x - c) ^ j /
        (Nat.factorial j : ℚ) -
      (c - max l (min c r)) ^ (n - j) / (Nat.factorial (n - j) : ℚ) * (x - c) ^ j /
        (Nat.factorial j : ℚ) := by
    intro j
    unfold intCF
    ring
  rw [Finset.sum_congr rfl fun j _ => hsplit j, Finset.sum_sub_distrib,
    sum_shift_pow n (x - c) (c - max l (min a r)),
    sum_shift_pow n (x - c) (c - max l (min c r))]
  unfold intCF
  rw [show x - c + (c - max l (min a r)) = x - max l (min a r) from by ring,
    show x - c + (c - max l (min c r)) = x - max l (min c r) from by ring]
  ring

/-- The coefficient bookkeeping behind one recursion side of the integral's
Chasles relation: shifting the ramp anchor and regrouping the Taylor sums. -/
theorem taylor_shift_sum (B : ℕ → ℚ) (u d w : ℚ) (N : ℕ) :
    (w + u) / d * (∑ j ∈ Finset.range N, B (N - j) * u ^ j / (Nat.factorial j : ℚ)) -
      ((N : ℚ) / d) * (∑ j ∈ Finset.range (N + 1),
        B (N + 1 - j) * u ^ j / (Nat.factorial j : ℚ)) =
    ∑ j ∈ Finset.range N, (w / d * B (N - j) - ((N - j : ℕ) : ℚ) * B (N - j + 1) / d) *
      u ^ j / (Nat.factorial j : ℚ) := by
  have key : ∑ j ∈ Finset.range N, B (N - j) * u ^ (j + 1) / (Nat.factorial j : ℚ)
      = ∑ j ∈ Finset.range (N + 1),
          (j : ℚ) * (B (N + 1 - j) * u ^ j / (Nat.factorial j : ℚ)) := by
    rw [Finset.sum_range_succ']
    simp only [Nat.cast_zero, zero_mul, add_zero]
    refine Finset.sum_congr rfl fun j hj => ?_
    have e1 : N + 1 - (j + 1) = N - j := by omega
    rw [e1, Nat.factorial_succ]
    have hf : (Nat.factorial j : ℚ) ≠ 0 := Nat.cast_ne_zero.mpr (Nat.factorial_ne_zero j)
    have hj1 : ((j : ℚ) + 1) ≠ 0 := by positivity
    push_cast
    field_simp
    ring
  have ext : ∑ j ∈ Finset.range (N + 1),
        ((N : ℚ) - (j : ℚ)) * (B (N + 1 - j) * u ^ j / (Nat.factorial j : ℚ))
      = ∑ j ∈ Finset.range N,
          ((N : ℚ) - (j : ℚ)) * (B (N + 1 - j) * u ^ j / (Nat.factorial j : ℚ)) := by
    rw [Finset.sum_range_succ]
    simp
  have hu : u * (∑ j ∈ Finset.range N, B (N - j) * u ^ j / (Nat.factorial j : ℚ))
      = ∑ j ∈ Finset.range N, B (N - j) * u ^ (j + 1) / (Nat.factorial j : ℚ) := by
    rw [Finset.mul_sum]
    exact Finset.sum_congr rfl fun j _ => by ring
  have hNS : (N : ℚ) * (∑ j ∈ Finset.range (N + 1),
        B (N + 1 - j) * u ^ j / (Nat.factorial j : ℚ))
      = (∑ j ∈ Finset.range (N + 1),
          ((N : ℚ) - (j : ℚ)) * (B (N + 1 - j) * u ^ j / (Nat.factorial j : ℚ))) +
        ∑ j ∈ Finset.range (N + 1),
          (j : ℚ) * (B (N + 1 - j) * u ^ j / (Nat.factorial j : ℚ)) := by
    rw [Finset.mul_sum, ← Finset.sum_add_distrib]
    exact Finset.sum_congr rfl fun j _ => by ring
  have hRHS : ∑ j ∈ Finset.range N,
        (w / d * B (N - j) - ((N - j : ℕ) : ℚ) * B (N - j + 1) / d) * u ^ j /
          (Nat.factorial j : ℚ)
      = w / d * (∑ j ∈ Finset.range N, B (N - j) * u ^ j / (Nat.factorial j : ℚ))
        - 1 / d * (∑ j ∈ Finset.range N,
            ((N : ℚ) - (j : ℚ)) * (B (N + 1 - j) * u ^ j / (Nat.factorial j : ℚ))) := by
    rw [Finset.mul_sum, Finset.mul_sum, ← Finset.sum_sub_distrib]
    refine Finset.sum_congr rfl fun j hj => ?_
    rw [Finset.mem_range] at hj
    have e1 : N - j + 1 = N + 1 - j := by omega
    have e2 : ((N - j : ℕ) : ℚ) = (N : ℚ) - (j : ℚ) := by
      push_cast [Nat.cast_sub (le_of_lt hj)]
      ring
    rw [e1, e2]
    ring
  rw [hRHS, ← ext]
  linear_combination (1 / d) * hu + (1 / d) * key - (1 / d) * hNS

/-- One side of the integral recursion respects the Chasles relation when
its child does: product-rule bookkeeping over the Taylor sums. -/
theorem side_chasles (e d a c x : ℚ) (A : ℚ → ℚ → ℕ → ℚ)
    (hA : ∀ m, 1 ≤ m → A a x m = A c x m +
      ∑ j ∈ Finset.range m, A a c (m - j) * (x - c) ^ j / (Nat.factorial j : ℚ))
    (N : ℕ) (hN : 1 ≤ N) :
    (x - e) / d * A a x N - (N : ℚ) * A a x (N + 1) / d =
      ((x - e) / d * A c x N - (N : ℚ) * A c x (N + 1) / d) +
        ∑ j ∈ Finset.range N,
          ((c - e) / d * A a c (N - j) - ((N - j : ℕ) : ℚ) * A a c (N - j + 1) / d) *
            (x - c) ^ j / (Nat.factorial j : ℚ) := by
  have h1 := hA N hN
  have h2 := hA (N + 1) (by omega)
  have hts := taylor_shift_sum (fun m => A a c m) (x - c) d (c - e) N
  simp only [] at hts
  rw [show c - e + (x - c) = x - e from by ring] at hts
  rw [h1, h2]
  linear_combination hts

/-- The Chasles relation with Taylor shift for `splineIFVal`, all orders
`≥ 1`, by induction over the sub-degree: the base case is `intCF_chasles`
and each recursion side lifts it through `side_chasles`. -/
theorem splineIFVal_chasles (s : bspline) (a c x : ℚ) :
    ∀ p i n, 1 ≤ n →
      splineIFVal s a x i p n = splineIFVal s c x i p n +
        ∑ j ∈ Finset.range n, splineIFVal s a c i p (n - j) * (x - c) ^ j /
          (Nat.factorial j : ℚ) := by
  intro p
  induction p with
  | zero =>
      intro i n hn
      obtain ⟨m, rfl⟩ : ∃ m, n = m + 1 := ⟨n - 1, by omega⟩
      show intCF (m + 1) a x _ _ = intCF (m + 1) c x _ _ + _
      rw [intCF_chasles (m + 1) a c x (s.kn i) (s.kn (min (i + 1) s.num_invls))]
      congr 1
      refine Finset.sum_congr rfl fun j hj => ?_
      rw [Finset.mem_range] at hj
      have hm2 : m + 1 - j = (m - j) + 1 := by omega
      rw [hm2]
      rfl
  | succ p ih =>
      intro i n hn
      obtain ⟨m, rfl⟩ : ∃ m, n = m + 1 := ⟨n - 1, by omega⟩
      have hL : (if i = s.num_invls + (p + 1) - 1 then (0 : ℚ)
          else
            (x - (s.splineSGenQ i p).2) / ((s.splineSGenQ i p).1 - (s.splineSGenQ i p).2) *
                splineIFVal s a x i p (m + 1) -
              ((m : ℚ) + 1) * splineIFVal s a x i p (m + 2) /
                ((s.splineSGenQ i p).1 - (s.splineSGenQ i p).2)) =
          (if i = s.num_invls + (p + 1) - 1 then (0 : ℚ)
           else
             (x - (s.splineSGenQ i p).2) / ((s.splineSGenQ i p).1 - (s.splineSGenQ i p).2) *
                 splineIFVal s c x i p (m + 1) -
               ((m : ℚ) + 1) * splineIFVal s c x i p (m + 2) /
                 ((s.splineSGenQ i p).1 - (s.splineSGenQ i p).2)) +
            ∑ j ∈ Finset.range (m + 1),
              (if i = s.num_invls + (p + 1) - 1 then (0 : ℚ)
               else
                 (c - (s.splineSGenQ i p).2) /
                     ((s.splineSGenQ i p).1 - (s.splineSGenQ i p).2) *
                     splineIFVal s a c i p (m - j + 1) -
                   (((m - j : ℕ) : ℚ) + 1) * splineIFVal s a c i p (m - j + 2) /
                     ((s.splineSGenQ i p).1 - (s.splineSGenQ i p).2)) *
                (x - c) ^ j / (Nat.factorial j : ℚ) := by
        by_cases hik : i = s.num_invls + (p + 1) - 1
        · simp [hik]
        · simp only [if_neg hik]
          have hsc := side_chasles (s.splineSGenQ i p).2
            ((s.splineSGenQ i p).1 - (s.splineSGenQ i p).2) a c x
            (fun t₁ t₂ w => splineIFVal s t₁ t₂ i p w) (fun w hw => ih i w hw)
            (m + 1) (by omega)
          simp only [] at hsc
          have hconv : ∀ j ∈ Finset.range (m + 1),
              ((c - (s.splineSGenQ i p).2) /
                    ((s.splineSGenQ i p).1 - (s.splineSGenQ i p).2) *
                    splineIFVal s a c i p (m + 1 - j) -
                  ((m + 1 - j : ℕ) : ℚ) * splineIFVal s a c i p (m + 1 - j + 1) /
                    ((s.splineSGenQ i p).1 - (s.splineSGenQ i p).2)) *
                (x - c) ^ j / (Nat.factorial j : ℚ) =
              ((c - (s.splineSGenQ i p).2) /
                    ((s.splineSGenQ i p).1 - (s.splineSGenQ i p).2) *
                    splineIFVal s a c i p (m - j + 1) -
                  (((m - j : ℕ) : ℚ) + 1) * splineIFVal s a c i p (m - j + 2) /
                    ((s.splineSGenQ i p).1 - (s.splineSGenQ i p).2)) *
                (x - c) ^ j / (Nat.factorial j : ℚ) := by
            intro j hj
            rw [Finset.mem_range] at hj
            have e1 : m + 1 - j = (m - j) + 1 := by omega
            have e2 : ((m + 1 - j : ℕ) : ℚ) = ((m - j : ℕ) : ℚ) + 1 := by
              rw [e1]
              push_cast
              ring
            rw [e2, e1, show m - j + 1 + 1 = m - j + 2 from by omega]
          rw [Finset.sum_congr rfl hconv] at hsc
          push_cast at hsc
          exact hsc
      have hR : (if i = 0 then (0 : ℚ)
          else
            (x - (s.splineSGenQ (i - 1) p).1) /
                ((s.splineSGenQ (i - 1) p).2 - (s.splineSGenQ (i - 1) p).1) *
                splineIFVal s a x (i - 1) p (m + 1) -
              ((m : ℚ) + 1) * splineIFVal s a x (i - 1) p (m + 2) /
                ((s.splineSGenQ (i - 1) p).2 - (s.splineSGenQ (i - 1) p).1)) =
          (if i = 0 then (0 : ℚ)
           else
             (x - (s.splineSGenQ (i - 1) p).1) /
                 ((s.splineSGenQ (i - 1) p).2 - (s.splineSGenQ (i - 1) p).1) *
                 splineIFVal s c x (i - 1) p (m + 1) -
               ((m : ℚ) + 1) * splineIFVal s c x (i - 1) p (m + 2) /
                 ((s.splineSGenQ (i - 1) p).2 - (s.splineSGenQ (i - 1) p).1)) +
            ∑ j ∈ Finset.range (m + 1),
              (if i = 0 then (0 : ℚ)
               else
                 (c - (s.splineSGenQ (i - 1) p).1) /
                     ((s.splineSGenQ (i - 1) p).2 - (s.splineSGenQ (i - 1) p).1) *
                     splineIFVal s a c (i - 1) p (m - j + 1) -
                   (((m - j : ℕ) : ℚ) + 1) * splineIFVal s a c (i - 1) p (m - j + 2) /
                     ((s.splineSGenQ (i - 1) p).2 - (s.splineSGenQ (i - 1) p).1)) *
                (x - c) ^ j / (Nat.factorial j : ℚ) := by
        by_cases hi0 : i = 0
        · simp [hi0]
        · simp only [if_neg hi0]
          have hsc := side_chasles (s.splineSGenQ (i - 1) p).1
            ((s.splineSGenQ (i - 1) p).2 - (s.splineSGenQ (i - 1) p).1) a c x
            (fun t₁ t₂ w => splineIFVal s t₁ t₂ (i - 1) p w) (fun w hw => ih (i - 1) w hw)
            (m + 1) (by omega)
          simp only [] at hsc
          have hconv : ∀ j ∈ Finset.range (m + 1),
              ((c - (s.splineSGenQ (i - 1) p).1) /
                    ((s.splineSGenQ (i - 1) p).2 - (s.splineSGenQ (i - 1) p).1) *
                    splineIFVal s a c (i - 1) p (m + 1 - j) -
                  ((m + 1 - j : ℕ) : ℚ) * splineIFVal s a c (i - 1) p (m + 1 - j + 1) /
                    ((s.splineSGenQ (i - 1) p).2 - (s.splineSGenQ (i - 1) p).1)) *
                (x - c) ^ j / (Nat.factorial j : ℚ) =
              ((c - (s.splineSGenQ (i - 1) p).1) /
                    ((s.splineSGenQ (i - 1) p).2 - (s.splineSGenQ (i - 1) p).1) *
                    splineIFVal s a c (i - 1) p (m - j + 1) -
                  (((m - j : ℕ) : ℚ) + 1) * splineIFVal s a c (i - 1) p (m - j + 2) /
                    ((s.splineSGenQ (i - 1) p).2 - (s.splineSGenQ (i - 1) p).1)) *
                (x - c) ^ j / (Nat.factorial j : ℚ) := by
            intro j hj
            rw [Finset.mem_range] at hj
            have e1 : m + 1 - j = (m - j) + 1 := by omega
            have e2 : ((m + 1 - j : ℕ) : ℚ) = ((m - j : ℕ) : ℚ) + 1 := by
              rw [e1]
              push_cast
              ring
            rw [e2, e1, show m - j + 1 + 1 = m - j + 2 from by omega]
          rw [Finset.sum_congr rfl hconv] at hsc
          push_cast at hsc
          exact hsc
      have hsum : ∑ j ∈ Finset.range (m + 1),
          splineIFVal s a c i (p + 1) (m + 1 - j) * (x - c) ^ j /
            (Nat.factorial j : ℚ) =
          (∑ j ∈ Finset.range (m + 1),
            (if i = s.num_invls + (p + 1) - 1 then (0 : ℚ)
             else
               (c - (s.splineSGenQ i p).2) /
                   ((s.splineSGenQ i p).1 - (s.splineSGenQ i p).2) *
                   splineIFVal s a c i p (m - j + 1) -
                 (((m - j : ℕ) : ℚ) + 1) * splineIFVal s a c i p (m - j + 2) /
                   ((s.splineSGenQ i p).1 - (s.splineSGenQ i p).2)) *
              (x - c) ^ j / (Nat.factorial j : ℚ)) +
          ∑ j ∈ Finset.range (m + 1),
            (if i = 0 then (0 : ℚ)
             else
               (c - (s.splineSGenQ (i - 1) p).1) /
                   ((s.splineSGenQ (i - 1) p).2 - (s.splineSGenQ (i - 1) p).1) *
                   splineIFVal s a c (i - 1) p (m - j + 1) -
                 (((m - j : ℕ) : ℚ) + 1) * splineIFVal s a c (i - 1) p (m - j + 2) /
                   ((s.splineSGenQ (i - 1) p).2 - (s.splineSGenQ (i - 1) p).1)) *
              (x - c) ^ j / (Nat.factorial j : ℚ) := by
        rw [← Finset.sum_add_distrib]
        refine Finset.sum_congr rfl fun j hj => ?_
        rw [Finset.mem_range] at hj
        have e1 : m + 1 - j = (m - j) + 1 := by omega
        rw [e1]
        show ((if _ then _ else _) + (if _ then _ else _)) * (x - c) ^ j /
          (Nat.factorial j : ℚ) = _
        ring
      show (if i = s.num_invls + (p + 1) - 1 then (0 : ℚ) else _) +
          (if i = 0 then (0 : ℚ) else _) = _
      rw [hsum]
      show _ = (if i = s.num_invls + (p + 1) - 1 then (0 : ℚ) else _) +
          (if i = 0 then (0 : ℚ) else _) + _
      linear_combination hL + hR

/-- C6 (confirmed): first-order integral additivity.  For every well-formed
model, valid basis index and bounds `a ≤ c ≤ x`, the three first-order
integral evaluations (no extrapolation) succeed and satisfy
`splineIF(a,c) + splineIF(c,x) = splineIF(a,x)` exactly. -/
theorem splineIF_first_order_additive (s : bspline) (hWF : s.WF) (i : ℕ)
    (hi : i < s.num_spline_bases) (a c x : ℚ) (hac : a ≤ c) (hcx : c ≤ x) :
    ∃ v₁ v₂ v₃,
      s.splineIF a c i 1 false false = Except.ok v₁ ∧
        s.splineIF c x i 1 false false = Except.ok v₂ ∧
        s.splineIF a x i 1 false false = Except.ok v₃ ∧ v₁ + v₂ = v₃ := by
  have hib : i ≤ s.num_invls + s.degree - 1 := by
    have h2 := hi
    unfold bspline.num_spline_bases at h2
    have hn1 := num_invls_pos hWF
    omega
  refine ⟨splineIFVal s a c i s.degree 1, splineIFVal s c x i s.degree 1,
    splineIFVal s a x i s.degree 1, splineIFGen_eval s hWF a c hac s.degree i 1 hib,
    splineIFGen_eval s hWF c x hcx s.degree i 1 hib,
    splineIFGen_eval s hWF a x (le_trans hac hcx) s.degree i 1 hib, ?_⟩
  have h := splineIFVal_chasles s a c x s.degree i 1 (le_refl 1)
  rw [h, Finset.sum_range_one]
  simp [Nat.factorial]
  ring

/-- Witness for C6 on the degree-0 model with `a = 0 ≤ c = 1/2 ≤ x = 2`. -/
theorem splineIF_first_order_additive_witness :
    ∃ v₁ v₂ v₃,
      mdl01.splineIF 0 (1/2) 0 1 false false = Except.ok v₁ ∧
        mdl01.splineIF (1/2) 2 0 1 false false = Except.ok v₂ ∧
        mdl01.splineIF 0 2 0 1 false false = Except.ok v₃ ∧ v₁ + v₂ = v₃ :=
  splineIF_first_order_additive mdl01 ⟨by decide, by decide⟩ 0 (by decide) 0 (1/2) 2
    (by norm_num) (by norm_num)

/-- Witness for C3: on `mdl012` (degree 1, knots `[0,1,2]`) at `x = 1/4` the
three hat values sum to 1. -/
theorem splineF_partition_of_unity_witness :
    ∑ i ∈ Finset.range mdl012.num_spline_bases, mdl012.splineF (1/4) i false false = 1 :=
  splineF_partition_of_unity mdl012 ⟨by decide, by decide⟩ (1/4)
    (by norm_num [mdl012, bspline.kn, List.getD])
    (by norm_num [mdl012, bspline.kn, bspline.num_invls, List.getD])

end XSpline
